import Mathlib

/-
  Verification of the fixed-joint collapse and asset addressing logic of
  sim_web_visualizer/parser/urdf.py (function load_urdf_with_yourdfpy).

  The embedding is shallow: Python dicts become association lists that keep
  insertion order (a new key is appended, an existing key is updated in
  place), numpy 4x4 arrays become Matrix (Fin 4) (Fin 4) Rat with exact
  arithmetic, and code that can raise becomes Option-valued. External
  collaborators (yourdfpy parsing, trimesh mesh loading, the mesh_parser
  module, the meshcat geometry constructors) are modelled as input data or
  as constructor tags that record exactly the arguments the source passes.
-/

namespace SimWeb

/-- 4x4 transform, exact rational arithmetic standing in for numpy float64. -/
abbrev Mat : Type := Matrix (Fin 4) (Fin 4) ℚ

/-- Association-list lookup, first match wins (Python dict lookup). -/
def alookup {α : Type} : List (String × α) → String → Option α
  | [], _ => none
  | (k, v) :: rest, x => if k = x then some v else alookup rest x

/-- Python dict assignment d[k] = v: update in place if the key exists,
append otherwise (dict insertion order semantics). -/
def upd {α : Type} (l : List (String × α)) (k : String) (v : α) : List (String × α) :=
  if (alookup l k).isSome then
    l.map (fun p => if p.1 = k then (k, v) else p)
  else l ++ [(k, v)]

/-- The keys of an association list, in order. -/
def keysOf {α : Type} (l : List (String × α)) : List String := l.map Prod.fst

/- ----------------------------------------------------------------- -/
/- Data model, translated from the yourdfpy structures the source reads -/
/- ----------------------------------------------------------------- -/

abbrev Vec3 : Type := ℚ × ℚ × ℚ
abbrev Rgba : Type := ℚ × ℚ × ℚ × ℚ

structure Joint where
  parent : String
  child : String
  jtype : String
  origin : Mat

structure MeshRef where
  filename : String
  scale : Option Vec3

structure SphereG where
  radius : ℚ

structure BoxG where
  size : Vec3

structure CylinderG where
  length : ℚ
  radius : ℚ

/-- Geometry as attribute probing: the source tests geom.mesh, geom.sphere,
geom.box, geom.cylinder for None in that order. -/
structure Geom where
  mesh : Option MeshRef
  sphere : Option SphereG
  box : Option BoxG
  cylinder : Option CylinderG

structure UColor where
  rgba : Rgba

structure UMaterial where
  name : String
  color : Option UColor

structure Visual where
  origin : Option Mat
  geometry : Geom
  material : Option UMaterial

structure Link where
  visuals : List Visual

/-- What trimesh.load returns for a mesh file: either a Scene with named
sub-meshes (each with its scene-graph local transform, graph.get(name)[0])
or a single mesh. -/
inductive MeshContent where
  | scene (subs : List (String × Mat))
  | single

/-- The parsed robot (yourdfpy URDF object) plus the external world the
loader consults: filename_handler resolves mesh paths, mesh_load is the
result of trimesh.load on a resolved path. -/
structure Robot where
  base_link : String
  joint_map : List (String × Joint)
  link_map : List (String × Link)
  material_map : List (String × Option UColor)
  filename_handler : String → String
  mesh_load : String → MeshContent

/-- The three configuration flags of load_urdf_with_yourdfpy. -/
structure Ctx where
  collapse_fixed_joints : Bool
  replace_cylinder_with_capsule : Bool
  use_mesh_materials : Bool

/- ----------------------------------------------------------------- -/
/- Joint sorting (source lines 32-41)                                 -/
/- ----------------------------------------------------------------- -/

/-- One iteration of the inner for loop of the sort (lines 36-41): skip a
joint already sorted, otherwise append its child to the link cache and the
joint to the sorted list when its parent is already cached. State is
(_link_cache, _joint_sorted). -/
def sortStep (jm : List (String × Joint)) (st : List String × List String)
    (joint_name : String) : List String × List String :=
  if joint_name ∈ st.2 then st
  else
    match alookup jm joint_name with
    | none => st
    | some j => if j.parent ∈ st.1 then (st.1 ++ [j.child], st.2 ++ [joint_name]) else st

/-- One full pass of the for loop over all joint names. -/
def sortPass (jm : List (String × Joint)) (st : List String × List String) :
    List String × List String :=
  (keysOf jm).foldl (sortStep jm) st

/-- State after n passes of the while loop, starting from
_link_cache = [base_link], _joint_sorted = []. -/
def sortState (r : Robot) : Nat → List String × List String
  | 0 => ([r.base_link], [])
  | n + 1 => sortPass r.joint_map (sortState r n)

/-- The sorted joint list the while loop produces when it terminates. A
pass that adds nothing is a fixed point, and every productive pass adds at
least one joint, so if the loop ever exits it does so within
length joint_map passes and the result is the state at that many passes. -/
def sortedJoints (r : Robot) : List String := (sortState r r.joint_map.length).2

/-- Termination condition of the while loop at line 35: all joints sorted.
When this fails, no later pass makes progress either, and the Python loop
runs forever. -/
def sortOK (r : Robot) : Prop := (sortedJoints r).length = r.joint_map.length

instance (r : Robot) : Decidable (sortOK r) := by
  unfold sortOK; infer_instance

/- ----------------------------------------------------------------- -/
/- Building link_root_map and link_pose_map (source lines 28-29,44-55) -/
/- ----------------------------------------------------------------- -/

/-- The pair of dicts link_root_map / link_pose_map. -/
structure BuildState where
  link_root_map : List (String × String)
  link_pose_map : List (String × Mat)

/-- Processing one sorted joint (lines 44-55). The fixed branch asserts
parent in link_root_map and then reads both maps at the parent; a failed
assert (or key error) aborts the load, modelled as none. np.eye(4) is 1. -/
def buildStep (jm : List (String × Joint)) (st : Option BuildState) (joint_name : String) :
    Option BuildState :=
  match st with
  | none => none
  | some s =>
    match alookup jm joint_name with
    | none => none
    | some j =>
      if j.jtype = "fixed" then
        match alookup s.link_root_map j.parent, alookup s.link_pose_map j.parent with
        | some rp, some pp =>
            some ⟨upd s.link_root_map j.child rp, upd s.link_pose_map j.child (pp * j.origin)⟩
        | _, _ => none
      else
        some ⟨upd s.link_root_map j.child j.child, upd s.link_pose_map j.child 1⟩

/-- Folding buildStep over a list of joint names. -/
def buildFrom (jm : List (String × Joint)) (st : Option BuildState) (l : List String) :
    Option BuildState :=
  l.foldl (buildStep jm) st

/-- Initial maps: link_root_map = {base: base}, link_pose_map = {base: eye} -/
def initMaps (r : Robot) : BuildState :=
  ⟨[(r.base_link, r.base_link)], [(r.base_link, 1)]⟩

/-- The collapse maps built with collapse_fixed_joints enabled. -/
def buildMaps (r : Robot) : Option BuildState :=
  buildFrom r.joint_map (some (initMaps r)) (sortedJoints r)

/- ----------------------------------------------------------------- -/
/- Well-formedness of the input tree                                   -/
/- ----------------------------------------------------------------- -/

/-- The child link of each joint, in joint_map order. -/
def childrenOf (jm : List (String × Joint)) : List String :=
  jm.map (fun p => p.2.child)

/-- The child of the joint a name resolves to (used to describe the link
cache, which is the base link followed by the children of sorted joints). -/
def childOf (jm : List (String × Joint)) (x : String) : String :=
  match alookup jm x with
  | some j => j.child
  | none => ""

/-- A well-formed tree: joint names are distinct (joint_map is a dict),
each link is the child of at most one joint, the base link is not the
child of any joint, and the joint-resolution scan terminates (the parent
of every joint is eventually resolved from the base). -/
def WellFormed (r : Robot) : Prop :=
  (keysOf r.joint_map).Nodup ∧ (childrenOf r.joint_map).Nodup ∧
    r.base_link ∉ childrenOf r.joint_map ∧ sortOK r

instance (r : Robot) : Decidable (WellFormed r) := by
  unfold WellFormed; infer_instance

/- ----------------------------------------------------------------- -/
/- Visual processing and asset emission (source lines 57-177)          -/
/- ----------------------------------------------------------------- -/

/-- transforms3d.euler.euler2mat(pi/2, 0, 0) homogenized: rotation by 90
degrees about the x axis (exact values standing in for cos/sin of pi/2). -/
def RxH : Mat := !![1, 0, 0, 0; 0, 0, -1, 0; 0, 1, 0, 0; 0, 0, 0, 1]

/-- The in-place slice assignment visual_pose[:3, :3] =
visual_pose[:3, :3] @ euler2mat(pi/2, 0, 0) at lines 139/142: the upper
left 3x3 block is replaced by its product with the rotation, every other
entry is untouched. Since column 3 of RxH is e3 and row 3 is e3, the new
block equals the corresponding block of P * RxH. -/
def rotFix (P : Mat) : Mat :=
  Matrix.of fun i j => if i ≠ 3 ∧ j ≠ 3 then (P * RxH) i j else P i j

/-- mesh_filename.lower().endswith(suffix) for an ASCII suffix (spelled
out on the character list so it evaluates by recursion). -/
def lowerEndsWith (s suffix : String) : Bool :=
  List.isSuffixOf suffix.toList (s.toList.map Char.toLower)

/-- Meshcat geometry constructor tags recording exactly the arguments the
source passes (vertex data lives in the external mesh files). -/
inductive MGeom where
  | triMesh (filename sub : String) (scale : Vec3)
  | objMesh (filename : String) (scale : Vec3)
  | daeMesh (filename : String)
  | sphereG (radius : ℚ)
  | boxG (size : Vec3)
  | cylinderG (length radius : ℚ)
  | capsuleG (radius length : ℚ)

/-- Meshcat material tags: get_trimesh_geometry_material calls keep their
arguments, MeshPhongMaterial keeps the truncated byte channels and the
opacity, None stays None. -/
inductive MMat where
  | trimeshMat (filename : String) (sub : Option String) (rgba : Option Rgba)
  | phongMat (rb gb bb : ℤ) (opacity : ℚ)
  | noMat

abbrev Payload : Type := MGeom × MMat × Mat

/-- np.clip(x, 0, 1) per channel. -/
def clip01 (x : ℚ) : ℚ := min 1 (max 0 x)

def clipRgba (c : Rgba) : Rgba := (clip01 c.1, clip01 c.2.1, clip01 c.2.2.1, clip01 c.2.2.2)

/-- (channel * 255).astype(np.uint8) for a channel already clipped into
[0, 1]: truncation is the floor. -/
def toByte (x : ℚ) : ℤ := Rat.floor (x * 255)

/-- Material for primitive geometry (lines 147-151). -/
def primMat (rgba : Option Rgba) : MMat :=
  match rgba with
  | some c => .phongMat (toByte c.1) (toByte c.2.1) (toByte c.2.2.1) c.2.2.2
  | none => .noMat

/-- Lines 67-74: resolve the URDF rgba. The outer none is the attribute
error raised when a document-level material found by name has no color. -/
def parse_urdf_rgba (material_map : List (String × Option UColor)) (visual : Visual) :
    Option (Option Rgba) :=
  match visual.material with
  | none => some none
  | some m =>
    match m.color with
    | some c => some (some (clipRgba c.rgba))
    | none =>
      match alookup material_map m.name with
      | none => some none
      | some none => none
      | some (some c) => some (some (clipRgba c.rgba))

/-- trimesh.load(..., force=1) at line 121 wraps a single mesh into a
one-node scene whose graph transform is the identity. -/
def forceScene : MeshContent → List (String × Mat)
  | .scene subs => subs
  | .single => [("geometry_0", 1)]

/-- Line 61: visual.origin if it is not None, else np.eye(4). When the
origin is present, the Python name visual_pose is a reference to the very
origin array (no copy). -/
def visualPose0 (visual : Visual) : Mat :=
  match visual.origin with
  | some m => m
  | none => 1

/-- Lines 76-77: when collapsing, rebind visual_pose to
link_pose_map[link_name] @ visual_pose (a key error aborts). -/
def poseStage (ctx : Ctx) (maps : BuildState) (link_name : String) (visual : Visual) :
    Option Mat :=
  if ctx.collapse_fixed_joints then
    (alookup maps.link_pose_map link_name).map (fun lp => lp * visualPose0 visual)
  else some (visualPose0 visual)

/-- Lines 79-151: the geometry dispatch for one visual, given the already
computed urdf_rgba and visual_pose. Produces the triples later zipped into
the offline dicts, together with the value of the visual_pose array after
the branch (the cylinder branches overwrite its rotation block in place at
lines 139/142; every other branch leaves it alone). The dae branch at
lines 107-113 computes local_pose = visual_pose @ graph.get(name)[0] but
appends visual_pose, so the sub-mesh transform is discarded there. -/
def dispatchGeom (r : Robot) (ctx : Ctx) (urdf_rgba : Option Rgba) (visual_pose : Mat)
    (geom : Geom) : Option (List Payload × Mat) :=
  match geom.mesh with
  | some mr =>
    let mesh_scale := match mr.scale with | some sc => sc | none => ((1 : ℚ), (1 : ℚ), (1 : ℚ))
    let mesh_filename := r.filename_handler mr.filename
    if lowerEndsWith mesh_filename "obj" then
      match r.mesh_load mesh_filename with
      | .scene subs =>
        some (subs.map (fun ns =>
          (MGeom.triMesh mesh_filename ns.1 mesh_scale,
           MMat.trimeshMat mesh_filename (some ns.1) urdf_rgba,
           visual_pose * ns.2)), visual_pose)
      | .single =>
        some ([(MGeom.objMesh mesh_filename mesh_scale,
                MMat.trimeshMat mesh_filename none urdf_rgba,
                visual_pose)], visual_pose)
    else if lowerEndsWith mesh_filename "dae" then
      match r.mesh_load mesh_filename with
      | .scene subs =>
        some (subs.map (fun ns =>
          (MGeom.daeMesh mesh_filename,
           MMat.trimeshMat mesh_filename (some ns.1) urdf_rgba,
           visual_pose)), visual_pose)
      | .single => none
    else if lowerEndsWith mesh_filename "stl" then
      some ([(MGeom.triMesh mesh_filename "" mesh_scale,
              MMat.trimeshMat mesh_filename none urdf_rgba,
              visual_pose)], visual_pose)
    else if lowerEndsWith mesh_filename "glb" then
      some ((forceScene (r.mesh_load mesh_filename)).map (fun ns =>
        (MGeom.triMesh mesh_filename ns.1 mesh_scale,
         MMat.trimeshMat mesh_filename (some ns.1) urdf_rgba,
         visual_pose * ns.2)), visual_pose)
    else none
  | none =>
    match geom.sphere with
    | some s => some ([(MGeom.sphereG s.radius, primMat urdf_rgba, visual_pose)], visual_pose)
    | none =>
      match geom.box with
      | some b => some ([(MGeom.boxG b.size, primMat urdf_rgba, visual_pose)], visual_pose)
      | none =>
        match geom.cylinder with
        | some c =>
          let geometry := if ctx.replace_cylinder_with_capsule then
              MGeom.capsuleG c.radius c.length
            else MGeom.cylinderG c.length c.radius
          some ([(geometry, primMat urdf_rgba, rotFix visual_pose)], rotFix visual_pose)
        | none => none

/-- Lines 59-151 for one Visual: resolve the color, compute visual_pose,
dispatch on the geometry. The returned Visual is the input visual as it is
after the call: visual_pose aliases visual.origin exactly when the origin
was present and collapsing is off (otherwise line 77 rebound the name), so
in that case the origin ends up holding the final visual_pose array value
(unchanged except in the cylinder branches, which mutate it in place). -/
def processVisual (r : Robot) (ctx : Ctx) (maps : BuildState) (link_name : String)
    (visual : Visual) : Option (List Payload × Visual) :=
  (parse_urdf_rgba (if ctx.use_mesh_materials then [] else r.material_map) visual).bind
    fun urdf_rgba =>
  (poseStage ctx maps link_name visual).bind fun visual_pose =>
  (dispatchGeom r ctx urdf_rgba visual_pose visual.geometry).bind fun ev =>
  some (ev.1,
    if ctx.collapse_fixed_joints = false ∧ visual.origin.isSome = true then
      { visual with origin := some ev.2 }
    else visual)

/-- One emission is one write of offline_data_dict / offline_pose_dict at
lines 167-168, the string key being link name, "/", geom_id. -/
abbrev Emission : Type := String × ℤ × Payload

/-- The for loop at lines 166-169: one entry per zipped triple, geom_id
incremented after each. -/
def emitEntries (meshcat_link_name : String) : ℤ → List Payload → List Emission
  | _, [] => []
  | gid, p :: rest => (meshcat_link_name, gid, p) :: emitEntries meshcat_link_name (gid + 1) rest

/-- Mutable state of the scan over link_map: link_mesh_count, the sequence
of offline dict writes, and the links as they are after processing (the
input tree threaded through, to observe mutation). -/
structure PState where
  link_mesh_count : List (String × ℤ)
  emissions : List Emission
  links_out : List (String × Link)

/-- Lines 158-163: set the counter to 0 for an unseen link, else increment
it, and read the starting geom_id. -/
def nextGid (counts : List (String × ℤ)) (c : String) : ℤ :=
  match alookup counts c with
  | none => 0
  | some k => k + 1

/-- Lines 59-170 for one visual: process it, resolve the meshcat link name
(lines 153-157, a missing root entry is a key error), run the counter
logic of lines 158-170; the final stored counter is geom_id - 1. -/
def vstep (r : Robot) (ctx : Ctx) (maps : BuildState) (link_name : String)
    (acc : PState × List Visual) (visual : Visual) : Option (PState × List Visual) :=
  match processVisual r ctx maps link_name visual with
  | none => none
  | some (entries, visual2) =>
    match (if ctx.collapse_fixed_joints then alookup maps.link_root_map link_name
           else some link_name) with
    | none => none
    | some meshcat_link_name =>
      let gid : ℤ := nextGid acc.1.link_mesh_count meshcat_link_name
      some ({ link_mesh_count :=
                upd acc.1.link_mesh_count meshcat_link_name (gid + entries.length - 1),
              emissions := acc.1.emissions ++ emitEntries meshcat_link_name gid entries,
              links_out := acc.1.links_out }, acc.2 ++ [visual2])

def vstepO (r : Robot) (ctx : Ctx) (maps : BuildState) (link_name : String)
    (st : Option (PState × List Visual)) (visual : Visual) : Option (PState × List Visual) :=
  match st with
  | none => none
  | some acc => vstep r ctx maps link_name acc visual

/-- One link of the for loop at line 58. -/
def lstepO (r : Robot) (ctx : Ctx) (maps : BuildState) (st : Option PState)
    (p : String × Link) : Option PState :=
  match st with
  | none => none
  | some s =>
    match p.2.visuals.foldl (vstepO r ctx maps p.1) (some (s, ([] : List Visual))) with
    | none => none
    | some (st2, vis2) => some { st2 with links_out := st2.links_out ++ [(p.1, ⟨vis2⟩)] }

/-- The whole scan over robot.link_map. -/
def processAll (r : Robot) (ctx : Ctx) (maps : BuildState) : Option PState :=
  r.link_map.foldl (lstepO r ctx maps) (some ⟨[], [], []⟩)

/-- Observable outcome of one call: the Python function either never
returns (the sort while loop keeps a true guard forever), raises, or
returns the AssetResource data. -/
inductive LoadOutcome where
  | diverges
  | fails
  | result (st : PState)

/-- load_urdf_with_yourdfpy. When collapse_fixed_joints is set and some
joint is never resolved, the while loop at line 35 runs forever: a pass
that adds nothing leaves the state fixed, every later pass repeats it, and
the guard stays true, so the branch is encoded as diverges (no error is
raised and nothing is returned). Raised exceptions (failed assert, key
error, NotImplementedError) are fails. -/
def load_urdf_with_yourdfpy (r : Robot) (ctx : Ctx) : LoadOutcome :=
  if ctx.collapse_fixed_joints then
    if sortOK r then
      match buildMaps r with
      | none => .fails
      | some maps =>
        match processAll r ctx maps with
        | none => .fails
        | some st => .result st
    else .diverges
  else
    match processAll r ctx (initMaps r) with
    | none => .fails
    | some st => .result st

/-- The emitted (link, index, payload) writes of a successful load. -/
def emissionsOf : LoadOutcome → Option (List Emission)
  | .result st => some st.emissions
  | _ => none

/-- The visual origins of the tree after a successful load, flattened. -/
def allOrigins : LoadOutcome → Option (List (Option Mat))
  | .result st => some (st.links_out.flatMap (fun p => p.2.visuals.map (fun v => v.origin)))
  | _ => none

/-- The pose of the first emitted entry of a successful load. -/
def firstPose (o : LoadOutcome) : Option Mat :=
  match o with
  | .result st =>
    match st.emissions with
    | [] => none
    | e :: _ => some e.2.2.2.2
  | _ => none

/-- A joint with its type replaced by a movable one. -/
def movJoint (j : Joint) : Joint :=
  { j with jtype := "movable" }

/-- The robot with every joint type replaced by a movable one. -/
def asMovable (r : Robot) : Robot :=
  { r with joint_map := r.joint_map.map (fun p => (p.1, movJoint p.2)) }

/-- Every link of link_map is the base link or the child of some joint
(true of any tree parsed from a URDF document). -/
def LinksCovered (r : Robot) : Prop :=
  ∀ p ∈ r.link_map, p.1 = r.base_link ∨ p.1 ∈ childrenOf r.joint_map

instance (r : Robot) : Decidable (LinksCovered r) := by
  unfold LinksCovered
  infer_instance

/-- The supported mesh extension dispatch at lines 83-130. -/
def supportedExt (s : String) : Bool :=
  lowerEndsWith s "obj" || lowerEndsWith s "dae" || lowerEndsWith s "stl" || lowerEndsWith s "glb"

/-- A visual the dispatch rejects: a mesh whose resolved filename matches
no supported extension, or a geometry carrying none of the four kinds. -/
def BadVisual (r : Robot) (visual : Visual) : Prop :=
  (∃ mr, visual.geometry.mesh = some mr ∧
    supportedExt (r.filename_handler mr.filename) = false) ∨
  (visual.geometry.mesh = none ∧ visual.geometry.sphere = none ∧
    visual.geometry.box = none ∧ visual.geometry.cylinder = none)

/-- The sorted prefix is a chain: each joint resolves, its parent is in
the cache accumulated so far, and the cache grows by its child. -/
inductive Chained (jm : List (String × Joint)) : List String → List String → Prop where
  | nil (acc : List String) : Chained jm acc []
  | cons (acc : List String) (x : String) (rest : List String) (j : Joint)
      (hx : alookup jm x = some j) (hp : j.parent ∈ acc)
      (hrest : Chained jm (acc ++ [j.child]) rest) : Chained jm acc (x :: rest)

/-- Invariant of the sorting state: the cache is the base link followed by
the children of the sorted joints, the sorted list has no duplicates, only
holds joint names, and forms a parent-before-child chain from the base. -/
structure SortInv (r : Robot) (st : List String × List String) : Prop where
  cache_eq : st.1 = r.base_link :: st.2.map (childOf r.joint_map)
  nodup : st.2.Nodup
  sub : ∀ x ∈ st.2, x ∈ keysOf r.joint_map
  chain : Chained r.joint_map [r.base_link] st.2

/-- The (root, pose) data a link can hold after the build, characterized
by the tree structure alone: the base holds (base, identity); the child of
a fixed joint inherits the parent root and multiplies the parent pose by
the joint origin; the child of a movable joint restarts at itself with the
identity, provided its parent is itself derivable. Membership of the joint
list is all that matters, so the relation is invariant under permutation
of joint_map. -/
inductive Entry (jm : List (String × Joint)) (b : String) : String → String → Mat → Prop where
  | base : Entry jm b b b 1
  | fixedJ (jn : String) (j : Joint) (rt : String) (p : Mat)
      (hmem : (jn, j) ∈ jm) (htype : j.jtype = "fixed")
      (hparent : Entry jm b j.parent rt p) : Entry jm b j.child rt (p * j.origin)
  | movableJ (jn : String) (j : Joint) (rt : String) (p : Mat)
      (hmem : (jn, j) ∈ jm) (htype : ¬ j.jtype = "fixed")
      (hparent : Entry jm b j.parent rt p) : Entry jm b j.child j.child 1

/-- Claim C2/C3 invariant: every stored root maps to itself and has the
identity pose. -/
def RootInv (s : BuildState) : Prop :=
  ∀ k rt, alookup s.link_root_map k = some rt →
    alookup s.link_root_map rt = some rt ∧ alookup s.link_pose_map rt = some 1

/-- Soundness invariant: every stored pair is Entry-derivable. -/
def EntryInv (jm : List (String × Joint)) (b : String) (s : BuildState) : Prop :=
  ∀ k rt p, alookup s.link_root_map k = some rt → alookup s.link_pose_map k = some p →
    Entry jm b k rt p

/-- Lookup in the root map through the Option result. -/
def rootLookup (o : Option BuildState) (x : String) : Option String :=
  match o with
  | none => none
  | some s => alookup s.link_root_map x

/-- Lookup in the pose map through the Option result. -/
def poseLookup (o : Option BuildState) (x : String) : Option Mat :=
  match o with
  | none => none
  | some s => alookup s.link_pose_map x

/-- Links reachable from the base through resolvable joints: exactly the
links the scan can ever put into the cache. Only membership of jm is
used, so it is permutation invariant. -/
inductive CacheReach (jm : List (String × Joint)) (b : String) : String → Prop where
  | base : CacheReach jm b b
  | step (jn : String) (j : Joint) (hmem : (jn, j) ∈ jm)
      (hp : CacheReach jm b j.parent) : CacheReach jm b j.child

/-- The emissions addressed to canonical link c, in order. -/
def emittedFor (ems : List Emission) (c : String) : List Emission :=
  ems.filter (fun e => e.1 == c)

/-- Counter invariant: for every canonical link the next geom_id equals
the number of entries already emitted for it, and the emitted indices so
far are exactly 0, 1, ..., in order. -/
def CountInv (st : PState) : Prop :=
  ∀ c : String,
    nextGid st.link_mesh_count c = ((emittedFor st.emissions c).length : ℤ) ∧
    (emittedFor st.emissions c).map (fun e => e.2.1) =
      (List.range (emittedFor st.emissions c).length).map (fun (i : ℕ) => (i : ℤ))

/-- The emission-relevant part of the scan state: the counters and the
offline dict writes (links_out may differ through the aliasing effect of
the cylinder branch, which does not touch the rendered output). -/
def PRel (a b : PState) : Prop :=
  a.link_mesh_count = b.link_mesh_count ∧ a.emissions = b.emissions

/- ----------------------------------------------------------------- -/
/- Concrete inputs for the remaining claims and the witnesses          -/
/- ----------------------------------------------------------------- -/

def mesh_load_single : String → MeshContent := fun _ => MeshContent.single

def ctxPlain : Ctx := ⟨false, false, false⟩

def ctxCollapse : Ctx := ⟨true, false, false⟩

def jW1 : Joint := { parent := "base", child := "c1", jtype := "fixed", origin := 1 }

def jW2 : Joint := { parent := "c1", child := "c2", jtype := "revolute", origin := 1 }

def sphereVisual : Visual :=
  { origin := none,
    geometry := { mesh := none, sphere := some { radius := 1 }, box := none, cylinder := none },
    material := none }

/-- base -fixed- c1 -revolute- c2, a sphere visual on c1. -/
def rW : Robot :=
  { base_link := "base"
    joint_map := [("j1", jW1), ("j2", jW2)]
    link_map := [("base", { visuals := [] }), ("c1", { visuals := [sphereVisual] }),
                 ("c2", { visuals := [] })]
    material_map := []
    filename_handler := fun s => s
    mesh_load := mesh_load_single }

/-- The same robot with the joint list given in the other order. -/
def rWswap : Robot := { rW with joint_map := [("j2", jW2), ("j1", jW1)] }

/-- A robot whose only joint has a parent that is never resolved. -/
def rBad : Robot :=
  { base_link := "base"
    joint_map := [("j", { parent := "ghost", child := "c", jtype := "fixed", origin := 1 })]
    link_map := []
    material_map := []
    filename_handler := fun s => s
    mesh_load := mesh_load_single }

def rC6 : Robot :=
  { base_link := "base"
    joint_map := []
    link_map := [("l", { visuals := [sphereVisual, sphereVisual] })]
    material_map := []
    filename_handler := fun s => s
    mesh_load := mesh_load_single }

def payloadSphere : Payload := (MGeom.sphereG 1, MMat.noMat, 1)

def resC6 : PState :=
  { link_mesh_count := [("l", 1)]
    emissions := [("l", 0, payloadSphere), ("l", 1, payloadSphere)]
    links_out := [("l", { visuals := [sphereVisual, sphereVisual] })] }

/-- A visual referencing a dae mesh whose scene has two named sub-meshes,
the first with a non-identity local transform. -/
def daeVisual : Visual :=
  { origin := none,
    geometry := { mesh := some { filename := "m.dae", scale := none }, sphere := none,
                  box := none, cylinder := none },
    material := none }

def rC7 : Robot :=
  { base_link := "base"
    joint_map := []
    link_map := [("l", { visuals := [daeVisual] })]
    material_map := []
    filename_handler := fun s => s
    mesh_load := fun _ => MeshContent.scene [("a", RxH), ("b", 1)] }

/-- A cylinder visual with an explicit origin (the aliased case). -/
def cylVisual : Visual :=
  { origin := some 1,
    geometry := { mesh := none, sphere := none, box := none,
                  cylinder := some { length := 2, radius := 1 } },
    material := none }

def rC10 : Robot :=
  { base_link := "base"
    joint_map := []
    link_map := [("l", { visuals := [cylVisual] })]
    material_map := []
    filename_handler := fun s => s
    mesh_load := mesh_load_single }

/-- A visual whose geometry carries none of the four kinds. -/
def badVisual : Visual :=
  { origin := none,
    geometry := { mesh := none, sphere := none, box := none, cylinder := none },
    material := none }

def rC9 : Robot :=
  { base_link := "base"
    joint_map := []
    link_map := [("l", { visuals := [badVisual] })]
    material_map := []
    filename_handler := fun s => s
    mesh_load := mesh_load_single }

/- ----------------------------------------------------------------- -/
/- Association list lemmas                                             -/
/- ----------------------------------------------------------------- -/

theorem alookup_append {α : Type} (l₁ l₂ : List (String × α)) (k : String) :
    alookup (l₁ ++ l₂) k =
      match alookup l₁ k with
      | some v => some v
      | none => alookup l₂ k := by
  induction l₁ with
  | nil => simp [alookup]
  | cons p rest ih =>
    by_cases h : p.1 = k
    · cases p; simp_all [alookup]
    · cases p; simp_all [alookup]

theorem alookup_append_left {α : Type} {l₁ : List (String × α)} {k : String} {v : α}
    (l₂ : List (String × α)) (h : alookup l₁ k = some v) :
    alookup (l₁ ++ l₂) k = some v := by
  rw [alookup_append, h]

theorem alookup_append_right {α : Type} {l₁ : List (String × α)} {k : String}
    (l₂ : List (String × α)) (h : alookup l₁ k = none) :
    alookup (l₁ ++ l₂) k = alookup l₂ k := by
  rw [alookup_append, h]

theorem mem_keysOf_iff {α : Type} {l : List (String × α)} {k : String} :
    k ∈ keysOf l ↔ (alookup l k).isSome := by
  induction l with
  | nil => simp [keysOf, alookup]
  | cons p rest ih =>
    obtain ⟨a, b⟩ := p
    simp only [keysOf, List.map_cons, List.mem_cons]
    by_cases h : a = k
    · simp [alookup, h]
    · simp only [alookup, if_neg h]
      rw [or_iff_right (fun h1 : k = a => h h1.symm)]
      exact ih

theorem alookup_eq_none_iff {α : Type} {l : List (String × α)} {k : String} :
    alookup l k = none ↔ k ∉ keysOf l := by
  rw [mem_keysOf_iff, Option.isSome_iff_exists]
  cases h : alookup l k <;> simp

theorem alookup_mem {α : Type} {l : List (String × α)} {k : String} {v : α}
    (h : alookup l k = some v) : (k, v) ∈ l := by
  induction l with
  | nil => simp [alookup] at h
  | cons p rest ih =>
    by_cases hp : p.1 = k
    · cases p
      simp only [alookup, if_pos hp] at h
      cases h
      subst hp
      exact List.mem_cons_self _ _
    · cases p
      simp only [alookup, if_neg hp] at h
      exact List.mem_cons_of_mem _ (ih h)

theorem alookup_of_mem_nodup {α : Type} {l : List (String × α)} {k : String} {v : α}
    (hnd : (keysOf l).Nodup) (h : (k, v) ∈ l) : alookup l k = some v := by
  induction l with
  | nil => simp at h
  | cons p rest ih =>
    obtain ⟨a, b⟩ := p
    simp only [keysOf, List.map_cons, List.nodup_cons] at hnd
    rcases List.mem_cons.mp h with h1 | h1
    · cases h1
      simp [alookup]
    · have hk : k ∈ keysOf rest := List.mem_map.mpr ⟨(k, v), h1, rfl⟩
      have hp : a ≠ k := fun hc => hnd.1 (by rw [hc]; exact hk)
      simp only [alookup, if_neg hp]
      exact ih hnd.2 h1

theorem upd_fresh {α : Type} {l : List (String × α)} {k : String} (v : α)
    (h : alookup l k = none) : upd l k v = l ++ [(k, v)] := by
  simp [upd, h]

theorem keysOf_append {α : Type} (l₁ l₂ : List (String × α)) :
    keysOf (l₁ ++ l₂) = keysOf l₁ ++ keysOf l₂ := by
  simp [keysOf]

theorem alookup_single {α : Type} (k x : String) (v : α) :
    alookup [(k, v)] x = if k = x then some v else none := rfl

theorem alookup_snoc_self {α : Type} {l : List (String × α)} {k : String} (v : α)
    (h : alookup l k = none) : alookup (l ++ [(k, v)]) k = some v := by
  rw [alookup_append_right _ h, alookup_single, if_pos rfl]

theorem alookup_snoc_ne {α : Type} (l : List (String × α)) (k x : String) (v : α)
    (h : x ≠ k) : alookup (l ++ [(k, v)]) x = alookup l x := by
  rw [alookup_append]
  cases hx : alookup l x with
  | some w => rfl
  | none =>
    have hne : ¬k = x := fun hc => h hc.symm
    simp [alookup_single, hne]

theorem alookup_map_swap_self {α : Type} {l : List (String × α)} {k : String} (v : α)
    (h : (alookup l k).isSome) :
    alookup (l.map (fun p => if p.1 = k then (k, v) else p)) k = some v := by
  induction l with
  | nil => simp [alookup] at h
  | cons p rest ih =>
    obtain ⟨a, b⟩ := p
    rw [List.map_cons]
    by_cases hp : a = k
    · rw [show (if (a, b).1 = k then (k, v) else (a, b)) = (k, v) from by simp [hp]]
      simp [alookup]
    · rw [show (if (a, b).1 = k then (k, v) else (a, b)) = (a, b) from by simp [hp]]
      simp only [alookup, if_neg hp] at h ⊢
      exact ih h

theorem alookup_map_swap_ne {α : Type} (l : List (String × α)) (k : String) (v : α)
    {x : String} (h : x ≠ k) :
    alookup (l.map (fun p => if p.1 = k then (k, v) else p)) x = alookup l x := by
  induction l with
  | nil => rfl
  | cons p rest ih =>
    obtain ⟨a, b⟩ := p
    rw [List.map_cons]
    by_cases hp : a = k
    · rw [show (if (a, b).1 = k then (k, v) else (a, b)) = (k, v) from by simp [hp]]
      have hkx : ¬k = x := fun hc => h hc.symm
      have hax : ¬a = x := by rw [hp]; exact hkx
      simp only [alookup, if_neg hkx, if_neg hax]
      exact ih
    · rw [show (if (a, b).1 = k then (k, v) else (a, b)) = (a, b) from by simp [hp]]
      by_cases hx : a = x
      · simp [alookup, hx]
      · simp only [alookup, if_neg hx]
        exact ih

theorem alookup_upd_self {α : Type} (l : List (String × α)) (k : String) (v : α) :
    alookup (upd l k v) k = some v := by
  unfold upd
  by_cases h : (alookup l k).isSome
  · simpa [if_pos h] using alookup_map_swap_self v h
  · simp only [if_neg h]
    exact alookup_snoc_self v (by cases hx : alookup l k <;> simp_all)

theorem alookup_upd_ne {α : Type} (l : List (String × α)) (k : String) (v : α)
    {x : String} (h : x ≠ k) : alookup (upd l k v) x = alookup l x := by
  unfold upd
  by_cases hs : (alookup l k).isSome
  · simpa [if_pos hs] using alookup_map_swap_ne l k v h
  · simp only [if_neg hs]
    exact alookup_snoc_ne l k x v h

/- ----------------------------------------------------------------- -/
/- Generic lemmas about folds carrying an Option state                 -/
/- ----------------------------------------------------------------- -/

theorem foldl_option_none {α β : Type} (step : Option α → β → Option α)
    (hnone : ∀ b, step none b = none) : ∀ l : List β, l.foldl step none = none := by
  intro l
  induction l with
  | nil => rfl
  | cons b l ih => rw [List.foldl_cons, hnone b]; exact ih

theorem foldl_option_inv {α β : Type} (P : α → Prop) (step : Option α → β → Option α)
    (hnone : ∀ b, step none b = none)
    (hstep : ∀ a b a2, P a → step (some a) b = some a2 → P a2) :
    ∀ (l : List β) (a a2 : α), P a → l.foldl step (some a) = some a2 → P a2 := by
  intro l
  induction l with
  | nil =>
    intro a a2 hp h
    rw [List.foldl_nil] at h
    cases h
    exact hp
  | cons b l ih =>
    intro a a2 hp h
    rw [List.foldl_cons] at h
    cases hsb : step (some a) b with
    | none => rw [hsb, foldl_option_none step hnone] at h; cases h
    | some a1 =>
      rw [hsb] at h
      exact ih a1 a2 (hstep a b a1 hp hsb) h

theorem foldl_option_all_some {α β : Type} (step : Option α → β → Option α)
    (hnone : ∀ b, step none b = none) :
    ∀ (l : List β) (a a2 : α), l.foldl step (some a) = some a2 →
      ∀ b ∈ l, ∃ c c2, step (some c) b = some c2 := by
  intro l
  induction l with
  | nil =>
    intro a a2 h b hb
    simp at hb
  | cons b0 l ih =>
    intro a a2 h b hb
    rw [List.foldl_cons] at h
    cases hsb : step (some a) b0 with
    | none => rw [hsb, foldl_option_none step hnone] at h; cases h
    | some a1 =>
      rw [hsb] at h
      rcases List.mem_cons.mp hb with rfl | hb2
      · exact ⟨a, a1, hsb⟩
      · exact ih a1 a2 h b hb2

theorem foldl_plain_inv {α β : Type} (P : α → Prop) (step : α → β → α)
    (hstep : ∀ a b, P a → P (step a b)) :
    ∀ (l : List β) (a : α), P a → P (l.foldl step a) := by
  intro l
  induction l with
  | nil => intro a h; exact h
  | cons b l ih => intro a h; exact ih _ (hstep a b h)

theorem foldl_congr_fn {α β : Type} (f g : α → β → α) (h : ∀ a b, f a b = g a b) :
    ∀ (l : List β) (a : α), l.foldl f a = l.foldl g a := by
  intro l
  induction l with
  | nil => intro a; rfl
  | cons b l ih => intro a; rw [List.foldl_cons, List.foldl_cons, h, ih]

/- ----------------------------------------------------------------- -/
/- Invariants of the joint sorting loop                                -/
/- ----------------------------------------------------------------- -/

theorem childOf_eq {jm : List (String × Joint)} {x : String} {j : Joint}
    (h : alookup jm x = some j) : childOf jm x = j.child := by
  unfold childOf
  rw [h]

theorem Chained.snoc {jm : List (String × Joint)} {x : String} {j : Joint} :
    ∀ {acc l : List String}, Chained jm acc l → alookup jm x = some j →
      j.parent ∈ acc ++ l.map (childOf jm) → Chained jm acc (l ++ [x]) := by
  intro acc l hch
  induction hch with
  | nil acc =>
    intro hx hp
    simp only [List.map_nil, List.append_nil] at hp
    exact Chained.cons acc x [] j hx hp (Chained.nil _)
  | cons acc y rest jy hy hpy hrest ih =>
    intro hx hp
    refine Chained.cons acc y (rest ++ [x]) jy hy hpy (ih hx ?_)
    simp only [List.map_cons] at hp
    rw [childOf_eq hy] at hp
    simp only [List.mem_append, List.mem_cons, List.mem_singleton] at hp ⊢
    tauto

theorem sortStep_inv {r : Robot} {st : List String × List String} (jn : String)
    (h : SortInv r st) : SortInv r (sortStep r.joint_map st jn) := by
  unfold sortStep
  by_cases h1 : jn ∈ st.2
  · simpa [h1] using h
  · simp only [if_neg h1]
    cases hx : alookup r.joint_map jn with
    | none => exact h
    | some j =>
      by_cases h2 : j.parent ∈ st.1
      · simp only [if_pos h2]
        refine ⟨?_, ?_, ?_, ?_⟩
        · rw [h.cache_eq]
          simp [List.map_append, childOf_eq hx]
        · simp [List.nodup_append, h.nodup, h1]
        · intro x hxm
          rcases List.mem_append.mp hxm with hm | hm
          · exact h.sub x hm
          · rcases List.mem_singleton.mp hm with rfl
            exact mem_keysOf_iff.mpr (by simp [hx])
        · refine h.chain.snoc hx ?_
          have h2' : j.parent ∈ r.base_link :: st.2.map (childOf r.joint_map) := by
            rw [← h.cache_eq]; exact h2
          simpa using h2'
      · simp only [if_neg h2]
        exact h

theorem sortPass_inv {r : Robot} {st : List String × List String} (h : SortInv r st) :
    SortInv r (sortPass r.joint_map st) :=
  foldl_plain_inv (SortInv r) (sortStep r.joint_map)
    (fun _ b ha => sortStep_inv b ha) (keysOf r.joint_map) st h

theorem sortState_inv (r : Robot) : ∀ n : ℕ, SortInv r (sortState r n) := by
  intro n
  induction n with
  | zero => exact ⟨rfl, List.nodup_nil, fun x hx => absurd hx (List.not_mem_nil x), Chained.nil _⟩
  | succ n ih => exact sortPass_inv ih

/- Monotonicity and fixed points of the sorting passes -/

theorem sortStep_cases (jm : List (String × Joint)) (st : List String × List String)
    (jn : String) :
    sortStep jm st jn = st ∨ (sortStep jm st jn).2 = st.2 ++ [jn] := by
  unfold sortStep
  by_cases h1 : jn ∈ st.2
  · left; simp [h1]
  · simp only [if_neg h1]
    cases hx : alookup jm jn with
    | none => left; rfl
    | some j =>
      by_cases h2 : j.parent ∈ st.1
      · right; simp [h2]
      · left; simp [h2]

theorem foldl_sortStep_le (jm : List (String × Joint)) :
    ∀ (l : List String) (st : List String × List String),
      st.2.length ≤ (l.foldl (sortStep jm) st).2.length := by
  intro l
  induction l with
  | nil => intro st; exact le_refl _
  | cons a l ih =>
    intro st
    rw [List.foldl_cons]
    refine le_trans ?_ (ih (sortStep jm st a))
    rcases sortStep_cases jm st a with h | h
    · rw [h]
    · rw [h, List.length_append]
      simp

theorem foldl_sortStep_eq_of_len (jm : List (String × Joint)) :
    ∀ (l : List String) (st : List String × List String),
      (l.foldl (sortStep jm) st).2.length = st.2.length → l.foldl (sortStep jm) st = st := by
  intro l
  induction l with
  | nil => intro st _; rfl
  | cons b l ih =>
    intro st h
    rw [List.foldl_cons] at h ⊢
    have hb : sortStep jm st b = st := by
      rcases sortStep_cases jm st b with h1 | h1
      · exact h1
      · exfalso
        have hle := foldl_sortStep_le jm l (sortStep jm st b)
        rw [h1, List.length_append, List.length_singleton] at hle
        omega
    rw [hb] at h ⊢
    exact ih st h

theorem foldl_sortStep_fix_mem (jm : List (String × Joint)) :
    ∀ (l : List String) (st : List String × List String),
      l.foldl (sortStep jm) st = st → ∀ a ∈ l, sortStep jm st a = st := by
  intro l
  induction l with
  | nil => intro st _ a ha; simp at ha
  | cons b l ih =>
    intro st h a ha
    rw [List.foldl_cons] at h
    have hb : sortStep jm st b = st := by
      rcases sortStep_cases jm st b with h1 | h1
      · exact h1
      · exfalso
        have hle := foldl_sortStep_le jm l (sortStep jm st b)
        rw [h] at hle
        rw [h1, List.length_append, List.length_singleton] at hle
        omega
    rcases List.mem_cons.mp ha with rfl | ha2
    · exact hb
    · rw [hb] at h
      exact ih st h a ha2

theorem sortPass_progress (jm : List (String × Joint)) (st : List String × List String) :
    sortPass jm st = st ∨ st.2.length + 1 ≤ (sortPass jm st).2.length := by
  unfold sortPass
  by_cases h : ((keysOf jm).foldl (sortStep jm) st).2.length = st.2.length
  · left; exact foldl_sortStep_eq_of_len jm _ st h
  · right
    have := foldl_sortStep_le jm (keysOf jm) st
    omega

theorem sortState_fix (r : Robot) (n : ℕ)
    (h : sortPass r.joint_map (sortState r n) = sortState r n) :
    ∀ m : ℕ, sortState r (n + m) = sortState r n := by
  intro m
  induction m with
  | zero => rfl
  | succ m ih =>
    have : sortState r (n + (m + 1)) = sortPass r.joint_map (sortState r (n + m)) := rfl
    rw [this, ih, h]

theorem sortState_fix_or_len (r : Robot) :
    ∀ n : ℕ, sortPass r.joint_map (sortState r n) = sortState r n ∨
      n ≤ (sortState r n).2.length := by
  intro n
  induction n with
  | zero => right; omega
  | succ n ih =>
    have hstep : sortState r (n + 1) = sortPass r.joint_map (sortState r n) := rfl
    rcases ih with h | h
    · left
      rw [hstep, h, h]
    · rcases sortPass_progress r.joint_map (sortState r n) with h1 | h1
      · left
        rw [hstep, h1, h1]
      · right
        rw [hstep]
        omega

theorem sortState_len_le (r : Robot) (n : ℕ) :
    (sortState r n).2.length ≤ r.joint_map.length := by
  have hinv := sortState_inv r n
  have hsub : (sortState r n).2 ⊆ keysOf r.joint_map := fun x hx => hinv.sub x hx
  have := (hinv.nodup.subperm hsub).length_le
  simpa [keysOf] using this

theorem sortState_len_mono (r : Robot) : ∀ n k : ℕ,
    (sortState r n).2.length ≤ (sortState r (n + k)).2.length := by
  intro n k
  induction k with
  | zero => exact le_refl _
  | succ k ih =>
    refine le_trans ih ?_
    have hstep : sortState r (n + (k + 1)) = sortPass r.joint_map (sortState r (n + k)) := rfl
    rw [hstep]
    rcases sortPass_progress r.joint_map (sortState r (n + k)) with h | h
    · rw [h]
    · omega

/-- With collapse enabled on a tree where some joint is never resolved,
the while loop at line 35 never exits: after any number of passes the
guard len(_joint_sorted) < len(_joint_unsorted) still holds. -/
theorem sort_never_terminates (r : Robot) (h : ¬ sortOK r) :
    ∀ n : ℕ, (sortState r n).2.length < r.joint_map.length := by
  have hN : (sortState r r.joint_map.length).2.length < r.joint_map.length := by
    have := sortState_len_le r r.joint_map.length
    have hne : (sortState r r.joint_map.length).2.length ≠ r.joint_map.length := h
    omega
  have hfix : sortPass r.joint_map (sortState r r.joint_map.length) =
      sortState r r.joint_map.length := by
    rcases sortState_fix_or_len r r.joint_map.length with h1 | h1
    · exact h1
    · omega
  intro n
  rcases le_or_lt n r.joint_map.length with hle | hlt
  · have := sortState_len_mono r n (r.joint_map.length - n)
    rw [show n + (r.joint_map.length - n) = r.joint_map.length from by omega] at this
    omega
  · have := sortState_fix r r.joint_map.length hfix (n - r.joint_map.length)
    rw [show r.joint_map.length + (n - r.joint_map.length) = n from by omega] at this
    rw [this]
    exact hN

/- ----------------------------------------------------------------- -/
/- Invariants of the map-building loop                                 -/
/- ----------------------------------------------------------------- -/

theorem buildStep_eq_fixed {jm : List (String × Joint)} {s : BuildState} {x : String}
    {j : Joint} {rp : String} {pp : Mat}
    (hx : alookup jm x = some j) (hj : j.jtype = "fixed")
    (hrp : alookup s.link_root_map j.parent = some rp)
    (hpp : alookup s.link_pose_map j.parent = some pp)
    (hfr : alookup s.link_root_map j.child = none)
    (hfp : alookup s.link_pose_map j.child = none) :
    buildStep jm (some s) x =
      some ⟨s.link_root_map ++ [(j.child, rp)],
            s.link_pose_map ++ [(j.child, pp * j.origin)]⟩ := by
  simp only [buildStep, hx, if_pos hj, hrp, hpp]
  rw [upd_fresh _ hfr, upd_fresh _ hfp]

theorem buildStep_eq_movable {jm : List (String × Joint)} {s : BuildState} {x : String}
    {j : Joint}
    (hx : alookup jm x = some j) (hj : ¬ j.jtype = "fixed")
    (hfr : alookup s.link_root_map j.child = none)
    (hfp : alookup s.link_pose_map j.child = none) :
    buildStep jm (some s) x =
      some ⟨s.link_root_map ++ [(j.child, j.child)],
            s.link_pose_map ++ [(j.child, 1)]⟩ := by
  simp only [buildStep, hx, if_neg hj]
  rw [upd_fresh _ hfr, upd_fresh _ hfp]

theorem buildFrom_none (jm : List (String × Joint)) (l : List String) :
    buildFrom jm none l = none :=
  foldl_option_none (buildStep jm) (fun _ => rfl) l

/-- Main induction over the sorted joint list: starting from maps whose
keys are exactly the accumulated cache, the build succeeds, extends the
keys by the children in order, never touches an existing entry, and
preserves the root and derivability invariants. -/
theorem buildFrom_ok (jm : List (String × Joint)) (b : String) :
    ∀ (l acc : List String), Chained jm acc l →
      ∀ s : BuildState,
        keysOf s.link_root_map = acc → keysOf s.link_pose_map = acc →
        (∀ x ∈ l, childOf jm x ∉ acc) → (l.map (childOf jm)).Nodup →
        ∃ t : BuildState, buildFrom jm (some s) l = some t ∧
          keysOf t.link_root_map = acc ++ l.map (childOf jm) ∧
          keysOf t.link_pose_map = acc ++ l.map (childOf jm) ∧
          (∀ k ∈ acc, alookup t.link_root_map k = alookup s.link_root_map k ∧
            alookup t.link_pose_map k = alookup s.link_pose_map k) ∧
          (RootInv s → RootInv t) ∧
          (EntryInv jm b s → EntryInv jm b t) := by
  intro l acc hch
  induction hch with
  | nil acc =>
    intro s hkr hkp _ _
    exact ⟨s, rfl, by simp [hkr], by simp [hkp], fun k _ => ⟨rfl, rfl⟩, id, id⟩
  | cons acc x rest j hx hp hrest ih =>
    intro s hkr hkp hfresh hnodup
    have hchild_not : j.child ∉ acc := by
      have := hfresh x (List.mem_cons_self x rest)
      rwa [childOf_eq hx] at this
    have hfr : alookup s.link_root_map j.child = none :=
      alookup_eq_none_iff.mpr (by rw [hkr]; exact hchild_not)
    have hfp : alookup s.link_pose_map j.child = none :=
      alookup_eq_none_iff.mpr (by rw [hkp]; exact hchild_not)
    have hpmem_r : j.parent ∈ keysOf s.link_root_map := by rw [hkr]; exact hp
    have hpmem_p : j.parent ∈ keysOf s.link_pose_map := by rw [hkp]; exact hp
    obtain ⟨rp, hrp⟩ := Option.isSome_iff_exists.mp (mem_keysOf_iff.mp hpmem_r)
    obtain ⟨pp, hpp⟩ := Option.isSome_iff_exists.mp (mem_keysOf_iff.mp hpmem_p)
    have hparent_ne : j.parent ≠ j.child := fun hc => hchild_not (hc ▸ hp)
    -- the two branches produce a state of the same shape
    by_cases hj : j.jtype = "fixed"
    · set s2 : BuildState :=
        ⟨s.link_root_map ++ [(j.child, rp)], s.link_pose_map ++ [(j.child, pp * j.origin)]⟩
        with hs2
      have hstep : buildStep jm (some s) x = some s2 := buildStep_eq_fixed hx hj hrp hpp hfr hfp
      have hk2r : keysOf s2.link_root_map = acc ++ [j.child] := by
        rw [hs2]; rw [keysOf_append, hkr]; rfl
      have hk2p : keysOf s2.link_pose_map = acc ++ [j.child] := by
        rw [hs2]; rw [keysOf_append, hkp]; rfl
      have hfresh2 : ∀ y ∈ rest, childOf jm y ∉ acc ++ [j.child] := by
        intro y hy hmem
        rcases List.mem_append.mp hmem with hm | hm
        · exact hfresh y (List.mem_cons_of_mem x hy) hm
        · rcases List.mem_singleton.mp hm with hm2
          rw [← childOf_eq hx] at hm2
          simp only [List.map_cons, List.nodup_cons] at hnodup
          exact hnodup.1 (hm2 ▸ List.mem_map_of_mem (childOf jm) hy)
      have hnodup2 : (rest.map (childOf jm)).Nodup := by
        simp only [List.map_cons, List.nodup_cons] at hnodup
        exact hnodup.2
      obtain ⟨t, hbt, hktr, hktp, hpres, hroot, hentry⟩ := ih s2 hk2r hk2p hfresh2 hnodup2
      refine ⟨t, ?_, ?_, ?_, ?_, ?_, ?_⟩
      · show buildFrom jm (buildStep jm (some s) x) rest = some t
        rw [hstep]; exact hbt
      · rw [hktr, List.map_cons, childOf_eq hx]; simp
      · rw [hktp, List.map_cons, childOf_eq hx]; simp
      · intro k hk
        have hkne : k ≠ j.child := fun hc => hchild_not (hc ▸ hk)
        have := hpres k (List.mem_append.mpr (Or.inl hk))
        rw [this.1, this.2, hs2]
        exact ⟨alookup_snoc_ne _ _ _ _ hkne, alookup_snoc_ne _ _ _ _ hkne⟩
      · intro hri
        apply hroot
        intro k rt hkrt
        by_cases hkc : k = j.child
        · subst hkc
          rw [hs2] at hkrt
          rw [alookup_snoc_self _ hfr] at hkrt
          cases hkrt
          have hold := hri j.parent rp hrp
          have hrp_mem : rp ∈ keysOf s.link_root_map :=
            mem_keysOf_iff.mpr (by simp [hold.1])
          have hrpne : rp ≠ j.child := fun hc => hchild_not (by rw [← hc, ← hkr]; exact hrp_mem)
          rw [hs2]
          exact ⟨by rw [alookup_snoc_ne _ _ _ _ hrpne]; exact hold.1,
                 by rw [alookup_snoc_ne _ _ _ _ hrpne]; exact hold.2⟩
        · rw [hs2, alookup_snoc_ne _ _ _ _ hkc] at hkrt
          have hold := hri k rt hkrt
          have hrt_mem : rt ∈ keysOf s.link_root_map :=
            mem_keysOf_iff.mpr (by simp [hold.1])
          have hrtne : rt ≠ j.child := fun hc => hchild_not (by rw [← hc, ← hkr]; exact hrt_mem)
          rw [hs2]
          exact ⟨by rw [alookup_snoc_ne _ _ _ _ hrtne]; exact hold.1,
                 by rw [alookup_snoc_ne _ _ _ _ hrtne]; exact hold.2⟩
      · intro hei
        apply hentry
        intro k rt p hkrt hkpt
        by_cases hkc : k = j.child
        · subst hkc
          rw [hs2] at hkrt hkpt
          rw [alookup_snoc_self _ hfr] at hkrt
          rw [alookup_snoc_self _ hfp] at hkpt
          cases hkrt
          cases hkpt
          exact Entry.fixedJ x j rp pp (alookup_mem hx) hj (hei j.parent rp pp hrp hpp)
        · rw [hs2, alookup_snoc_ne _ _ _ _ hkc] at hkrt hkpt
          exact hei k rt p hkrt hkpt
    · set s2 : BuildState :=
        ⟨s.link_root_map ++ [(j.child, j.child)], s.link_pose_map ++ [(j.child, 1)]⟩
        with hs2
      have hstep : buildStep jm (some s) x = some s2 := buildStep_eq_movable hx hj hfr hfp
      have hk2r : keysOf s2.link_root_map = acc ++ [j.child] := by
        rw [hs2]; rw [keysOf_append, hkr]; rfl
      have hk2p : keysOf s2.link_pose_map = acc ++ [j.child] := by
        rw [hs2]; rw [keysOf_append, hkp]; rfl
      have hfresh2 : ∀ y ∈ rest, childOf jm y ∉ acc ++ [j.child] := by
        intro y hy hmem
        rcases List.mem_append.mp hmem with hm | hm
        · exact hfresh y (List.mem_cons_of_mem x hy) hm
        · rcases List.mem_singleton.mp hm with hm2
          rw [← childOf_eq hx] at hm2
          simp only [List.map_cons, List.nodup_cons] at hnodup
          exact hnodup.1 (hm2 ▸ List.mem_map_of_mem (childOf jm) hy)
      have hnodup2 : (rest.map (childOf jm)).Nodup := by
        simp only [List.map_cons, List.nodup_cons] at hnodup
        exact hnodup.2
      obtain ⟨t, hbt, hktr, hktp, hpres, hroot, hentry⟩ := ih s2 hk2r hk2p hfresh2 hnodup2
      refine ⟨t, ?_, ?_, ?_, ?_, ?_, ?_⟩
      · show buildFrom jm (buildStep jm (some s) x) rest = some t
        rw [hstep]; exact hbt
      · rw [hktr, List.map_cons, childOf_eq hx]; simp
      · rw [hktp, List.map_cons, childOf_eq hx]; simp
      · intro k hk
        have hkne : k ≠ j.child := fun hc => hchild_not (hc ▸ hk)
        have := hpres k (List.mem_append.mpr (Or.inl hk))
        rw [this.1, this.2, hs2]
        exact ⟨alookup_snoc_ne _ _ _ _ hkne, alookup_snoc_ne _ _ _ _ hkne⟩
      · intro hri
        apply hroot
        intro k rt hkrt
        by_cases hkc : k = j.child
        · subst hkc
          rw [hs2] at hkrt
          rw [alookup_snoc_self _ hfr] at hkrt
          cases hkrt
          rw [hs2]
          exact ⟨alookup_snoc_self _ hfr, alookup_snoc_self _ hfp⟩
        · rw [hs2, alookup_snoc_ne _ _ _ _ hkc] at hkrt
          have hold := hri k rt hkrt
          have hrt_mem : rt ∈ keysOf s.link_root_map :=
            mem_keysOf_iff.mpr (by simp [hold.1])
          have hrtne : rt ≠ j.child := fun hc => hchild_not (by rw [← hc, ← hkr]; exact hrt_mem)
          rw [hs2]
          exact ⟨by rw [alookup_snoc_ne _ _ _ _ hrtne]; exact hold.1,
                 by rw [alookup_snoc_ne _ _ _ _ hrtne]; exact hold.2⟩
      · intro hei
        apply hentry
        intro k rt p hkrt hkpt
        by_cases hkc : k = j.child
        · subst hkc
          rw [hs2] at hkrt hkpt
          rw [alookup_snoc_self _ hfr] at hkrt
          rw [alookup_snoc_self _ hfp] at hkpt
          cases hkrt
          cases hkpt
          exact Entry.movableJ x j rp pp (alookup_mem hx) hj (hei j.parent rp pp hrp hpp)
        · rw [hs2, alookup_snoc_ne _ _ _ _ hkc] at hkrt hkpt
          exact hei k rt p hkrt hkpt

/-- For every joint name in the processed list, the final maps hold
exactly the values the step stored for its child: the parent values and,
for a fixed joint, pose[child] = pose[parent] * origin with root
inherited; for a movable joint, root[child] = child and pose[child] = 1. -/
theorem buildFrom_entries (jm : List (String × Joint)) :
    ∀ (l acc : List String), Chained jm acc l →
      ∀ s : BuildState,
        keysOf s.link_root_map = acc → keysOf s.link_pose_map = acc →
        (∀ x ∈ l, childOf jm x ∉ acc) → (l.map (childOf jm)).Nodup →
        ∀ t : BuildState, buildFrom jm (some s) l = some t →
        ∀ y ∈ l, ∀ jy : Joint, alookup jm y = some jy →
          (jy.jtype = "fixed" →
            ∃ rt pp, alookup t.link_root_map jy.parent = some rt ∧
              alookup t.link_pose_map jy.parent = some pp ∧
              alookup t.link_root_map jy.child = some rt ∧
              alookup t.link_pose_map jy.child = some (pp * jy.origin)) ∧
          (¬ jy.jtype = "fixed" →
            alookup t.link_root_map jy.child = some jy.child ∧
            alookup t.link_pose_map jy.child = some 1) := by
  intro l acc hch
  induction hch with
  | nil acc =>
    intro s _ _ _ _ t _ y hy
    simp at hy
  | cons acc x rest j hx hp hrest ih =>
    intro s hkr hkp hfresh hnodup t hbt y hy jy hjy
    have hchild_not : j.child ∉ acc := by
      have := hfresh x (List.mem_cons_self x rest)
      rwa [childOf_eq hx] at this
    have hfr : alookup s.link_root_map j.child = none :=
      alookup_eq_none_iff.mpr (by rw [hkr]; exact hchild_not)
    have hfp : alookup s.link_pose_map j.child = none :=
      alookup_eq_none_iff.mpr (by rw [hkp]; exact hchild_not)
    have hpmem_r : j.parent ∈ keysOf s.link_root_map := by rw [hkr]; exact hp
    have hpmem_p : j.parent ∈ keysOf s.link_pose_map := by rw [hkp]; exact hp
    obtain ⟨rp, hrp⟩ := Option.isSome_iff_exists.mp (mem_keysOf_iff.mp hpmem_r)
    obtain ⟨pp, hpp⟩ := Option.isSome_iff_exists.mp (mem_keysOf_iff.mp hpmem_p)
    have hparent_ne : j.parent ≠ j.child := fun hc => hchild_not (hc ▸ hp)
    have hfresh2 : ∀ z ∈ rest, childOf jm z ∉ acc ++ [j.child] := by
      intro z hz hmem
      rcases List.mem_append.mp hmem with hm | hm
      · exact hfresh z (List.mem_cons_of_mem x hz) hm
      · rcases List.mem_singleton.mp hm with hm2
        rw [← childOf_eq hx] at hm2
        simp only [List.map_cons, List.nodup_cons] at hnodup
        exact hnodup.1 (hm2 ▸ List.mem_map_of_mem (childOf jm) hz)
    have hnodup2 : (rest.map (childOf jm)).Nodup := by
      simp only [List.map_cons, List.nodup_cons] at hnodup
      exact hnodup.2
    by_cases hj : j.jtype = "fixed"
    · set s2 : BuildState :=
        ⟨s.link_root_map ++ [(j.child, rp)], s.link_pose_map ++ [(j.child, pp * j.origin)]⟩
        with hs2
      have hstep : buildStep jm (some s) x = some s2 := buildStep_eq_fixed hx hj hrp hpp hfr hfp
      have hk2r : keysOf s2.link_root_map = acc ++ [j.child] := by
        rw [hs2]; rw [keysOf_append, hkr]; rfl
      have hk2p : keysOf s2.link_pose_map = acc ++ [j.child] := by
        rw [hs2]; rw [keysOf_append, hkp]; rfl
      have hbt2 : buildFrom jm (some s2) rest = some t := by
        rw [← hstep]
        exact hbt
      rcases List.mem_cons.mp hy with rfl | hy2
      · obtain rfl := Option.some.inj (hx ▸ hjy)
        obtain ⟨t2, hbt3, _, _, hpres, _, _⟩ :=
          buildFrom_ok jm "" rest (acc ++ [j.child]) hrest s2 hk2r hk2p hfresh2 hnodup2
        rw [hbt2] at hbt3
        obtain rfl := Option.some.inj hbt3
        constructor
        · intro _
          have hparent_in : j.parent ∈ acc ++ [j.child] := List.mem_append.mpr (Or.inl hp)
          have hchild_in : j.child ∈ acc ++ [j.child] :=
            List.mem_append.mpr (Or.inr (List.mem_singleton.mpr rfl))
          have h1 := hpres j.parent hparent_in
          have h2 := hpres j.child hchild_in
          refine ⟨rp, pp, ?_, ?_, ?_, ?_⟩
          · rw [h1.1, hs2, alookup_snoc_ne _ _ _ _ hparent_ne]; exact hrp
          · rw [h1.2, hs2, alookup_snoc_ne _ _ _ _ hparent_ne]; exact hpp
          · rw [h2.1, hs2]; exact alookup_snoc_self _ hfr
          · rw [h2.2, hs2]; exact alookup_snoc_self _ hfp
        · intro hcontra
          exact absurd hj hcontra
      · exact ih s2 hk2r hk2p hfresh2 hnodup2 t hbt2 y hy2 jy hjy
    · set s2 : BuildState :=
        ⟨s.link_root_map ++ [(j.child, j.child)], s.link_pose_map ++ [(j.child, 1)]⟩
        with hs2
      have hstep : buildStep jm (some s) x = some s2 := buildStep_eq_movable hx hj hfr hfp
      have hk2r : keysOf s2.link_root_map = acc ++ [j.child] := by
        rw [hs2]; rw [keysOf_append, hkr]; rfl
      have hk2p : keysOf s2.link_pose_map = acc ++ [j.child] := by
        rw [hs2]; rw [keysOf_append, hkp]; rfl
      have hbt2 : buildFrom jm (some s2) rest = some t := by
        rw [← hstep]
        exact hbt
      rcases List.mem_cons.mp hy with rfl | hy2
      · obtain rfl := Option.some.inj (hx ▸ hjy)
        obtain ⟨t2, hbt3, _, _, hpres, _, _⟩ :=
          buildFrom_ok jm "" rest (acc ++ [j.child]) hrest s2 hk2r hk2p hfresh2 hnodup2
        rw [hbt2] at hbt3
        obtain rfl := Option.some.inj hbt3
        constructor
        · intro hcontra
          exact absurd hcontra hj
        · intro _
          have hchild_in : j.child ∈ acc ++ [j.child] :=
            List.mem_append.mpr (Or.inr (List.mem_singleton.mpr rfl))
          have h2 := hpres j.child hchild_in
          exact ⟨by rw [h2.1, hs2]; exact alookup_snoc_self _ hfr,
                 by rw [h2.2, hs2]; exact alookup_snoc_self _ hfp⟩
      · exact ih s2 hk2r hk2p hfresh2 hnodup2 t hbt2 y hy2 jy hjy

/- ----------------------------------------------------------------- -/
/- Top-level facts about buildMaps on a well-formed tree               -/
/- ----------------------------------------------------------------- -/

theorem childOf_mem_children {jm : List (String × Joint)} {x : String}
    (hx : x ∈ keysOf jm) : childOf jm x ∈ childrenOf jm := by
  obtain ⟨j, hj⟩ := Option.isSome_iff_exists.mp (mem_keysOf_iff.mp hx)
  rw [childOf_eq hj]
  exact List.mem_map_of_mem _ (alookup_mem hj)

theorem sorted_children_nodup (r : Robot) (hwf : WellFormed r) :
    ((sortedJoints r).map (childOf r.joint_map)).Nodup := by
  have hinv := sortState_inv r r.joint_map.length
  refine List.Nodup.map_on ?_ hinv.nodup
  intro x hxm y hym hxy
  obtain ⟨jx, hjx⟩ := Option.isSome_iff_exists.mp (mem_keysOf_iff.mp (hinv.sub x hxm))
  obtain ⟨jy, hjy⟩ := Option.isSome_iff_exists.mp (mem_keysOf_iff.mp (hinv.sub y hym))
  rw [childOf_eq hjx, childOf_eq hjy] at hxy
  have hpair := List.inj_on_of_nodup_map hwf.2.1 (alookup_mem hjx) (alookup_mem hjy) hxy
  exact congrArg Prod.fst hpair

theorem sorted_fresh (r : Robot) (hwf : WellFormed r) :
    ∀ x ∈ sortedJoints r, childOf r.joint_map x ∉ [r.base_link] := by
  intro x hx hmem
  rcases List.mem_singleton.mp hmem with hm
  have hinv := sortState_inv r r.joint_map.length
  have := childOf_mem_children (hinv.sub x hx)
  rw [hm] at this
  exact hwf.2.2.1 this

theorem sortedJoints_perm (r : Robot) (hwf : WellFormed r) :
    (sortedJoints r).Perm (keysOf r.joint_map) := by
  have hinv := sortState_inv r r.joint_map.length
  have hsub : sortedJoints r ⊆ keysOf r.joint_map := fun x hx => hinv.sub x hx
  refine (hinv.nodup.subperm hsub).perm_of_length_le ?_
  have h1 : (keysOf r.joint_map).length = r.joint_map.length := by simp [keysOf]
  have h2 : (sortState r r.joint_map.length).2.length = r.joint_map.length := hwf.2.2.2
  omega

theorem mem_sortedJoints (r : Robot) (hwf : WellFormed r) {k : String}
    (hk : k ∈ keysOf r.joint_map) : k ∈ sortedJoints r :=
  (sortedJoints_perm r hwf).mem_iff.mpr hk

theorem initMaps_keys_r (r : Robot) : keysOf (initMaps r).link_root_map = [r.base_link] := rfl

theorem initMaps_keys_p (r : Robot) : keysOf (initMaps r).link_pose_map = [r.base_link] := rfl

theorem initMaps_rootInv (r : Robot) : RootInv (initMaps r) := by
  intro k rt hk
  simp only [initMaps, alookup_single] at hk
  by_cases hb : r.base_link = k
  · rw [if_pos hb] at hk
    cases hk
    subst hb
    exact ⟨by simp [initMaps, alookup_single], by simp [initMaps, alookup_single]⟩
  · rw [if_neg hb] at hk
    cases hk

theorem initMaps_entryInv (r : Robot) : EntryInv r.joint_map r.base_link (initMaps r) := by
  intro k rt p hk hp
  simp only [initMaps, alookup_single] at hk hp
  by_cases hb : r.base_link = k
  · rw [if_pos hb] at hk hp
    cases hk
    cases hp
    subst hb
    exact Entry.base
  · rw [if_neg hb] at hk
    cases hk

/-- With collapse enabled on a well-formed tree, the build succeeds; the
maps hold the base link and the children of the sorted joints, the base
keeps (base, identity), and the root/derivability invariants hold. -/
theorem buildMaps_ok (r : Robot) (hwf : WellFormed r) :
    ∃ t : BuildState, buildMaps r = some t ∧
      keysOf t.link_root_map = r.base_link :: (sortedJoints r).map (childOf r.joint_map) ∧
      keysOf t.link_pose_map = r.base_link :: (sortedJoints r).map (childOf r.joint_map) ∧
      alookup t.link_root_map r.base_link = some r.base_link ∧
      alookup t.link_pose_map r.base_link = some 1 ∧
      RootInv t ∧ EntryInv r.joint_map r.base_link t := by
  have hinv := sortState_inv r r.joint_map.length
  obtain ⟨t, hbt, hkr, hkp, hpres, hroot, hentry⟩ :=
    buildFrom_ok r.joint_map r.base_link (sortedJoints r) [r.base_link] hinv.chain
      (initMaps r) (initMaps_keys_r r) (initMaps_keys_p r)
      (sorted_fresh r hwf) (sorted_children_nodup r hwf)
  have hbase := hpres r.base_link (List.mem_singleton.mpr rfl)
  refine ⟨t, hbt, by simpa using hkr, by simpa using hkp, ?_, ?_,
    hroot (initMaps_rootInv r), hentry (initMaps_entryInv r)⟩
  · rw [hbase.1]
    simp [initMaps, alookup_single]
  · rw [hbase.2]
    simp [initMaps, alookup_single]

/-- The per-joint characterization at the top level. -/
theorem buildMaps_entries (r : Robot) (hwf : WellFormed r) {t : BuildState}
    (ht : buildMaps r = some t) :
    ∀ jn : String, jn ∈ keysOf r.joint_map → ∀ j : Joint, alookup r.joint_map jn = some j →
      (j.jtype = "fixed" →
        ∃ rt pp, alookup t.link_root_map j.parent = some rt ∧
          alookup t.link_pose_map j.parent = some pp ∧
          alookup t.link_root_map j.child = some rt ∧
          alookup t.link_pose_map j.child = some (pp * j.origin)) ∧
      (¬ j.jtype = "fixed" →
        alookup t.link_root_map j.child = some j.child ∧
        alookup t.link_pose_map j.child = some 1) := by
  intro jn hjn j hj
  have hinv := sortState_inv r r.joint_map.length
  exact buildFrom_entries r.joint_map (sortedJoints r) [r.base_link] hinv.chain
    (initMaps r) (initMaps_keys_r r) (initMaps_keys_p r)
    (sorted_fresh r hwf) (sorted_children_nodup r hwf) t ht
    jn (mem_sortedJoints r hwf hjn) j hj

/- ----------------------------------------------------------------- -/
/- Completeness of Entry and order independence                        -/
/- ----------------------------------------------------------------- -/

theorem Entry_lookup (r : Robot) (hwf : WellFormed r) {t : BuildState}
    (ht : buildMaps r = some t) :
    ∀ {x rt : String} {p : Mat}, Entry r.joint_map r.base_link x rt p →
      alookup t.link_root_map x = some rt ∧ alookup t.link_pose_map x = some p := by
  intro x rt p he
  induction he with
  | base =>
    obtain ⟨t2, ht2, _, _, hbr, hbp, _, _⟩ := buildMaps_ok r hwf
    rw [ht] at ht2
    obtain rfl := Option.some.inj ht2
    exact ⟨hbr, hbp⟩
  | fixedJ jn j rt p hmem htype hparent ih =>
    have hlook : alookup r.joint_map jn = some j := alookup_of_mem_nodup hwf.1 hmem
    have hkeys : jn ∈ keysOf r.joint_map := List.mem_map_of_mem Prod.fst hmem
    obtain ⟨rt0, pp0, h1, h2, h3, h4⟩ := (buildMaps_entries r hwf ht jn hkeys j hlook).1 htype
    rw [ih.1] at h1
    rw [ih.2] at h2
    obtain rfl := Option.some.inj h1
    obtain rfl := Option.some.inj h2
    exact ⟨h3, h4⟩
  | movableJ jn j rt p hmem htype hparent ih =>
    have hlook : alookup r.joint_map jn = some j := alookup_of_mem_nodup hwf.1 hmem
    have hkeys : jn ∈ keysOf r.joint_map := List.mem_map_of_mem Prod.fst hmem
    exact (buildMaps_entries r hwf ht jn hkeys j hlook).2 htype

theorem Entry_of_subset {jm1 jm2 : List (String × Joint)} {b : String}
    (hsub : jm1 ⊆ jm2) :
    ∀ {x rt : String} {p : Mat}, Entry jm1 b x rt p → Entry jm2 b x rt p := by
  intro x rt p he
  induction he with
  | base => exact Entry.base
  | fixedJ jn j rt p hmem htype hparent ih => exact Entry.fixedJ jn j rt p (hsub hmem) htype ih
  | movableJ jn j rt p hmem htype hparent ih =>
    exact Entry.movableJ jn j rt p (hsub hmem) htype ih

theorem CacheReach_of_subset {jm1 jm2 : List (String × Joint)} {b : String}
    (hsub : jm1 ⊆ jm2) : ∀ {x : String}, CacheReach jm1 b x → CacheReach jm2 b x := by
  intro x h
  induction h with
  | base => exact CacheReach.base
  | step jn j hmem hp ih => exact CacheReach.step jn j (hsub hmem) ih

theorem chained_parent_reach {jm : List (String × Joint)} {b : String} :
    ∀ {acc l : List String}, Chained jm acc l → (∀ a ∈ acc, CacheReach jm b a) →
      ∀ x ∈ l, ∃ j : Joint, alookup jm x = some j ∧ CacheReach jm b j.parent := by
  intro acc l hch
  induction hch with
  | nil acc =>
    intro _ x hx
    simp at hx
  | cons acc y rest jy hy hpy hrest ih =>
    intro hacc x hx
    have hchild : CacheReach jm b jy.child :=
      CacheReach.step y jy (alookup_mem hy) (hacc _ hpy)
    have hacc2 : ∀ a ∈ acc ++ [jy.child], CacheReach jm b a := by
      intro a2 ha2
      rcases List.mem_append.mp ha2 with h1 | h1
      · exact hacc a2 h1
      · rcases List.mem_singleton.mp h1 with rfl
        exact hchild
    rcases List.mem_cons.mp hx with rfl | hx2
    · exact ⟨jy, hy, hacc _ hpy⟩
    · exact ih hacc2 x hx2

theorem reach_of_wf (r : Robot) (hwf : WellFormed r) :
    ∀ q : String × Joint, q ∈ r.joint_map →
      CacheReach r.joint_map r.base_link q.2.parent := by
  intro q hq
  have hinv := sortState_inv r r.joint_map.length
  have hkq : q.1 ∈ keysOf r.joint_map := List.mem_map_of_mem Prod.fst hq
  have hsorted : q.1 ∈ sortedJoints r := mem_sortedJoints r hwf hkq
  have hacc : ∀ a ∈ [r.base_link], CacheReach r.joint_map r.base_link a := by
    intro a ha
    rcases List.mem_singleton.mp ha with rfl
    exact CacheReach.base
  obtain ⟨j, hlook, hreach⟩ := chained_parent_reach hinv.chain hacc q.1 hsorted
  have hq2 : alookup r.joint_map q.1 = some q.2 := alookup_of_mem_nodup hwf.1 hq
  rw [hq2] at hlook
  obtain rfl := Option.some.inj hlook
  exact hreach

theorem reach_mem_cache (r : Robot) {st : List String × List String} (hinv : SortInv r st)
    (hfix : sortPass r.joint_map st = st) (hkeys : (keysOf r.joint_map).Nodup) :
    ∀ x : String, CacheReach r.joint_map r.base_link x → x ∈ st.1 := by
  intro x hx
  induction hx with
  | base =>
    rw [hinv.cache_eq]
    exact List.mem_cons_self _ _
  | step jn j hmem hp ih =>
    have hjn_keys : jn ∈ keysOf r.joint_map := List.mem_map_of_mem Prod.fst hmem
    have hlook : alookup r.joint_map jn = some j := alookup_of_mem_nodup hkeys hmem
    have hstep := foldl_sortStep_fix_mem r.joint_map (keysOf r.joint_map) st hfix jn hjn_keys
    have hjn_sorted : jn ∈ st.2 := by
      by_contra hns
      have hval : sortStep r.joint_map st jn = (st.1 ++ [j.child], st.2 ++ [jn]) := by
        unfold sortStep
        rw [if_neg hns, hlook]
        show (if j.parent ∈ st.1 then (st.1 ++ [j.child], st.2 ++ [jn]) else st) = _
        rw [if_pos ih]
      rw [hval] at hstep
      have := congrArg (fun q => q.2.length) hstep
      simp at this
    rw [hinv.cache_eq]
    refine List.mem_cons_of_mem _ ?_
    rw [← childOf_eq hlook]
    exact List.mem_map_of_mem _ hjn_sorted

theorem sortOK_of_reach (r : Robot) (hkeys : (keysOf r.joint_map).Nodup)
    (hreach : ∀ q : String × Joint, q ∈ r.joint_map →
      CacheReach r.joint_map r.base_link q.2.parent) :
    sortOK r := by
  rcases sortState_fix_or_len r r.joint_map.length with hfix | hlen
  · have hinv := sortState_inv r r.joint_map.length
    have hall : ∀ jn ∈ keysOf r.joint_map, jn ∈ (sortState r r.joint_map.length).2 := by
      intro jn hjn
      obtain ⟨j, hlook⟩ := Option.isSome_iff_exists.mp (mem_keysOf_iff.mp hjn)
      have hpar := hreach (jn, j) (alookup_mem hlook)
      have hpc : j.parent ∈ (sortState r r.joint_map.length).1 :=
        reach_mem_cache r hinv hfix hkeys _ hpar
      have hstep := foldl_sortStep_fix_mem r.joint_map (keysOf r.joint_map) _ hfix jn hjn
      by_contra hns
      have hval : sortStep r.joint_map (sortState r r.joint_map.length) jn =
          ((sortState r r.joint_map.length).1 ++ [j.child],
           (sortState r r.joint_map.length).2 ++ [jn]) := by
        unfold sortStep
        rw [if_neg hns, hlook]
        show (if j.parent ∈ (sortState r r.joint_map.length).1 then _ else _) = _
        rw [if_pos hpc]
      rw [hval] at hstep
      have := congrArg (fun q => q.2.length) hstep
      simp at this
    have hsp := hkeys.subperm hall
    have h1 := hsp.length_le
    have h2 := sortState_len_le r r.joint_map.length
    have h3 : (keysOf r.joint_map).length = r.joint_map.length := by simp [keysOf]
    show (sortState r r.joint_map.length).2.length = r.joint_map.length
    omega
  · have h2 := sortState_len_le r r.joint_map.length
    show (sortState r r.joint_map.length).2.length = r.joint_map.length
    omega

theorem wellFormed_perm (r1 r2 : Robot) (hb : r1.base_link = r2.base_link)
    (hperm : r1.joint_map.Perm r2.joint_map) (hwf1 : WellFormed r1) : WellFormed r2 := by
  have hkeys : (keysOf r1.joint_map).Perm (keysOf r2.joint_map) := hperm.map Prod.fst
  have hchil : (childrenOf r1.joint_map).Perm (childrenOf r2.joint_map) := by
    unfold childrenOf
    exact hperm.map _
  refine ⟨hkeys.nodup_iff.mp hwf1.1, hchil.nodup_iff.mp hwf1.2.1, ?_, ?_⟩
  · intro hmem
    have h1 : r2.base_link ∈ childrenOf r1.joint_map := hchil.mem_iff.mpr hmem
    rw [← hb] at h1
    exact hwf1.2.2.1 h1
  · refine sortOK_of_reach r2 (hkeys.nodup_iff.mp hwf1.1) ?_
    intro q hq
    have hq1 : q ∈ r1.joint_map := hperm.symm.subset hq
    have hr1 := reach_of_wf r1 hwf1 q hq1
    have hr2 := CacheReach_of_subset hperm.subset hr1
    rwa [hb] at hr2

/-- C1: with collapse_fixed_joints enabled, for every fixed joint
parent -> child of a well-formed tree the build succeeds and the final
maps satisfy root[child] = root[parent] and
pose[child] = pose[parent] * origin, exactly. -/
theorem C1_fixed_pose_composition (r : Robot) (hwf : WellFormed r)
    (jn : String) (j : Joint) (hj : (jn, j) ∈ r.joint_map) (hfix : j.jtype = "fixed") :
    ∃ t : BuildState, buildMaps r = some t ∧ ∃ rt pp,
      alookup t.link_root_map j.parent = some rt ∧
      alookup t.link_pose_map j.parent = some pp ∧
      alookup t.link_root_map j.child = some rt ∧
      alookup t.link_pose_map j.child = some (pp * j.origin) := by
  obtain ⟨t, ht, _, _, _, _, _, _⟩ := buildMaps_ok r hwf
  have hlook : alookup r.joint_map jn = some j := alookup_of_mem_nodup hwf.1 hj
  have hkeys : jn ∈ keysOf r.joint_map := List.mem_map_of_mem Prod.fst hj
  obtain ⟨rt, pp, h1, h2, h3, h4⟩ := (buildMaps_entries r hwf ht jn hkeys j hlook).1 hfix
  exact ⟨t, ht, rt, pp, h1, h2, h3, h4⟩

/-- C2: with collapse_fixed_joints enabled on a well-formed tree, the
collapse map is idempotent: root[root[x]] = root[x] for every stored x. -/
theorem C2_collapse_idempotent (r : Robot) (hwf : WellFormed r) :
    ∃ t : BuildState, buildMaps r = some t ∧
      ∀ x rt : String, alookup t.link_root_map x = some rt →
        alookup t.link_root_map rt = some rt := by
  obtain ⟨t, ht, _, _, _, _, hroot, _⟩ := buildMaps_ok r hwf
  exact ⟨t, ht, fun x rt hx => (hroot x rt hx).1⟩

/-- C3: with collapse_fixed_joints enabled on a well-formed tree, the base
link and the child of every movable joint have the identity pose, and
pose[root[x]] = identity for every stored x. -/
theorem C3_identity_at_root (r : Robot) (hwf : WellFormed r) :
    ∃ t : BuildState, buildMaps r = some t ∧
      alookup t.link_pose_map r.base_link = some 1 ∧
      (∀ (jn : String) (j : Joint), (jn, j) ∈ r.joint_map → ¬ j.jtype = "fixed" →
        alookup t.link_pose_map j.child = some 1) ∧
      (∀ x rt : String, alookup t.link_root_map x = some rt →
        alookup t.link_pose_map rt = some 1) := by
  obtain ⟨t, ht, _, _, _, hbp, hroot, _⟩ := buildMaps_ok r hwf
  refine ⟨t, ht, hbp, ?_, fun x rt hx => (hroot x rt hx).2⟩
  intro jn j hj hmov
  have hlook : alookup r.joint_map jn = some j := alookup_of_mem_nodup hwf.1 hj
  have hkeys : jn ∈ keysOf r.joint_map := List.mem_map_of_mem Prod.fst hj
  exact ((buildMaps_entries r hwf ht jn hkeys j hlook).2 hmov).2

/-- C5: permuting the joint list of a well-formed tree yields the same
CollapseMap and PoseMap (same key-value content; the dicts are equal as
maps), and both builds succeed. -/
theorem C5_order_independence (r1 r2 : Robot) (hb : r1.base_link = r2.base_link)
    (hperm : r1.joint_map.Perm r2.joint_map) (hwf1 : WellFormed r1) :
    (buildMaps r1).isSome ∧ (buildMaps r2).isSome ∧
      ∀ x : String, rootLookup (buildMaps r1) x = rootLookup (buildMaps r2) x ∧
        poseLookup (buildMaps r1) x = poseLookup (buildMaps r2) x := by
  have hwf2 : WellFormed r2 := wellFormed_perm r1 r2 hb hperm hwf1
  obtain ⟨t1, ht1, hk1r, hk1p, _, _, _, hent1⟩ := buildMaps_ok r1 hwf1
  obtain ⟨t2, ht2, hk2r, hk2p, _, _, _, hent2⟩ := buildMaps_ok r2 hwf2
  have dir12 : ∀ (x rt : String) (p : Mat), alookup t1.link_root_map x = some rt →
      alookup t1.link_pose_map x = some p →
      alookup t2.link_root_map x = some rt ∧ alookup t2.link_pose_map x = some p := by
    intro x rt p h1 h2
    have he1 := hent1 x rt p h1 h2
    have he2 : Entry r2.joint_map r2.base_link x rt p := by
      have := Entry_of_subset hperm.subset he1
      rwa [hb] at this
    exact Entry_lookup r2 hwf2 ht2 he2
  have dir21 : ∀ (x rt : String) (p : Mat), alookup t2.link_root_map x = some rt →
      alookup t2.link_pose_map x = some p →
      alookup t1.link_root_map x = some rt ∧ alookup t1.link_pose_map x = some p := by
    intro x rt p h1 h2
    have he2 := hent2 x rt p h1 h2
    have he1 : Entry r1.joint_map r1.base_link x rt p := by
      have := Entry_of_subset hperm.symm.subset he2
      rwa [← hb] at this
    exact Entry_lookup r1 hwf1 ht1 he1
  refine ⟨by rw [ht1]; rfl, by rw [ht2]; rfl, ?_⟩
  intro x
  rw [ht1, ht2]
  show alookup t1.link_root_map x = alookup t2.link_root_map x ∧
    alookup t1.link_pose_map x = alookup t2.link_pose_map x
  cases h1r : alookup t1.link_root_map x with
  | some rt =>
    have hxk : x ∈ keysOf t1.link_root_map := mem_keysOf_iff.mpr (by simp [h1r])
    have hxkp : x ∈ keysOf t1.link_pose_map := by
      rw [hk1p]
      rw [hk1r] at hxk
      exact hxk
    obtain ⟨p, h1p⟩ := Option.isSome_iff_exists.mp (mem_keysOf_iff.mp hxkp)
    have h2 := dir12 x rt p h1r h1p
    exact ⟨by rw [h2.1], by rw [h1p, h2.2]⟩
  | none =>
    have hxk : x ∉ keysOf t1.link_root_map := alookup_eq_none_iff.mp h1r
    have h1p : alookup t1.link_pose_map x = none := by
      refine alookup_eq_none_iff.mpr ?_
      rw [hk1p]
      rw [hk1r] at hxk
      exact hxk
    have h2r : alookup t2.link_root_map x = none := by
      cases h2r : alookup t2.link_root_map x with
      | none => rfl
      | some rt2 =>
        have hxk2 : x ∈ keysOf t2.link_root_map := mem_keysOf_iff.mpr (by simp [h2r])
        have hxkp2 : x ∈ keysOf t2.link_pose_map := by
          rw [hk2p]
          rw [hk2r] at hxk2
          exact hxk2
        obtain ⟨p2, h2p⟩ := Option.isSome_iff_exists.mp (mem_keysOf_iff.mp hxkp2)
        have hback := dir21 x rt2 p2 h2r h2p
        rw [h1r] at hback
        exact Option.noConfusion hback.1
    have h2p : alookup t2.link_pose_map x = none := by
      refine alookup_eq_none_iff.mpr ?_
      have : x ∉ keysOf t2.link_root_map := alookup_eq_none_iff.mp h2r
      rw [hk2p]
      rw [hk2r] at this
      exact this
    exact ⟨by rw [h2r], by rw [h1p, h2p]⟩

/- ----------------------------------------------------------------- -/
/- Per-link index contiguity (claim C6)                                -/
/- ----------------------------------------------------------------- -/

theorem emitEntries_length (c : String) : ∀ (g : ℤ) (l : List Payload),
    (emitEntries c g l).length = l.length := by
  intro g l
  induction l generalizing g with
  | nil => rfl
  | cons p rest ih =>
    rw [show emitEntries c g (p :: rest) = (c, g, p) :: emitEntries c (g + 1) rest from rfl]
    simp [ih (g + 1)]

theorem emitEntries_links (c : String) : ∀ (g : ℤ) (l : List Payload) (e : Emission),
    e ∈ emitEntries c g l → e.1 = c := by
  intro g l
  induction l generalizing g with
  | nil => intro e he; simp [emitEntries] at he
  | cons p rest ih =>
    intro e he
    rw [show emitEntries c g (p :: rest) = (c, g, p) :: emitEntries c (g + 1) rest from rfl] at he
    rcases List.mem_cons.mp he with rfl | h2
    · rfl
    · exact ih (g + 1) e h2

theorem emitEntries_ids (c : String) : ∀ (g : ℤ) (l : List Payload),
    (emitEntries c g l).map (fun e => e.2.1) =
      (List.range l.length).map (fun (i : ℕ) => g + (i : ℤ)) := by
  intro g l
  induction l generalizing g with
  | nil => rfl
  | cons p rest ih =>
    rw [show emitEntries c g (p :: rest) = (c, g, p) :: emitEntries c (g + 1) rest from rfl]
    rw [List.map_cons, ih (g + 1), List.length_cons, List.range_succ_eq_map, List.map_cons,
      List.map_map]
    congr 1
    · simp
    · refine List.map_congr_left ?_
      intro i _
      simp only [Function.comp]
      push_cast
      ring

theorem rangeCast_append (n m : ℕ) :
    (List.range (n + m)).map (fun (i : ℕ) => (i : ℤ)) =
      (List.range n).map (fun (i : ℕ) => (i : ℤ)) ++
        (List.range m).map (fun (i : ℕ) => (n : ℤ) + (i : ℤ)) := by
  rw [List.range_add, List.map_append, List.map_map]
  refine congrArg (fun l => _ ++ l) ?_
  refine List.map_congr_left ?_
  intro i _
  simp only [Function.comp]
  push_cast
  ring

theorem emittedFor_append (a b : List Emission) (c : String) :
    emittedFor (a ++ b) c = emittedFor a c ++ emittedFor b c := by
  simp [emittedFor]

theorem emittedFor_emit_self (c : String) (g : ℤ) (l : List Payload) :
    emittedFor (emitEntries c g l) c = emitEntries c g l := by
  unfold emittedFor
  refine List.filter_eq_self.mpr ?_
  intro e he
  have := emitEntries_links c g l e he
  simp [this]

theorem emittedFor_emit_ne {c c2 : String} (h : ¬ c2 = c) (g : ℤ) (l : List Payload) :
    emittedFor (emitEntries c g l) c2 = [] := by
  unfold emittedFor
  rw [List.filter_eq_nil_iff]
  intro e he
  have := emitEntries_links c g l e he
  simp [this]
  exact fun hc => h hc.symm

theorem vstep_countInv {r : Robot} {ctx : Ctx} {maps : BuildState} {ln : String}
    {acc acc2 : PState × List Visual} {v : Visual}
    (hinv : CountInv acc.1) (hstep : vstep r ctx maps ln acc v = some acc2) :
    CountInv acc2.1 := by
  unfold vstep at hstep
  cases hpv : processVisual r ctx maps ln v with
  | none =>
    simp only [hpv] at hstep
    exact Option.noConfusion hstep
  | some pr =>
    obtain ⟨entries, v2⟩ := pr
    simp only [hpv] at hstep
    cases hname : (if ctx.collapse_fixed_joints = true then alookup maps.link_root_map ln
        else some ln) with
    | none =>
      simp only [hname] at hstep
      exact Option.noConfusion hstep
    | some mname =>
      simp only [hname] at hstep
      obtain rfl := Option.some.inj hstep
      intro c
      have hg := (hinv mname).1
      by_cases hc : c = mname
      · subst hc
        constructor
        · show nextGid (upd acc.1.link_mesh_count c
              (nextGid acc.1.link_mesh_count c + (entries.length : ℤ) - 1)) c = _
          unfold nextGid
          rw [alookup_upd_self]
          rw [emittedFor_append, emittedFor_emit_self, List.length_append,
            emitEntries_length]
          have hg2 : (match alookup acc.1.link_mesh_count c with
              | none => (0 : ℤ)
              | some k => k + 1) = ((emittedFor acc.1.emissions c).length : ℤ) := hg
          rw [hg2]
          push_cast
          ring
        · show (emittedFor (acc.1.emissions ++
              emitEntries c (nextGid acc.1.link_mesh_count c) entries) c).map _ = _
          rw [emittedFor_append, emittedFor_emit_self, List.map_append, (hinv c).2,
            emitEntries_ids, hg, List.length_append, emitEntries_length, rangeCast_append]
      · constructor
        · show nextGid (upd acc.1.link_mesh_count mname _) c = _
          unfold nextGid
          rw [alookup_upd_ne _ _ _ hc]
          rw [emittedFor_append, emittedFor_emit_ne hc, List.append_nil]
          exact (hinv c).1
        · rw [emittedFor_append, emittedFor_emit_ne hc, List.append_nil]
          exact (hinv c).2

theorem lstepO_countInv {r : Robot} {ctx : Ctx} {maps : BuildState}
    (s : PState) (p : String × Link) (s2 : PState)
    (hinv : CountInv s) (h : lstepO r ctx maps (some s) p = some s2) : CountInv s2 := by
  unfold lstepO at h
  cases hin : p.2.visuals.foldl (vstepO r ctx maps p.1) (some (s, ([] : List Visual))) with
  | none =>
    simp only [hin] at h
    exact Option.noConfusion h
  | some pr =>
    obtain ⟨st2, vis2⟩ := pr
    simp only [hin] at h
    obtain rfl := Option.some.inj h
    have hst2 : CountInv st2 := by
      have := foldl_option_inv (fun q : PState × List Visual => CountInv q.1)
        (vstepO r ctx maps p.1) (fun _ => rfl)
        (fun a b a2 ha hs => vstep_countInv ha hs)
        p.2.visuals (s, ([] : List Visual)) (st2, vis2) hinv hin
      exact this
    exact fun c => hst2 c

theorem processAll_countInv (r : Robot) (ctx : Ctx) (maps : BuildState) {st : PState}
    (h : processAll r ctx maps = some st) : CountInv st := by
  unfold processAll at h
  refine foldl_option_inv CountInv (lstepO r ctx maps) (fun _ => rfl)
    (fun a b a2 ha hs => lstepO_countInv a b a2 ha hs)
    r.link_map ⟨[], [], []⟩ st ?_ h
  intro c
  constructor
  · rfl
  · rfl

/-- A successful load comes from a successful processAll. -/
theorem load_result_processAll {r : Robot} {ctx : Ctx} {st : PState}
    (h : load_urdf_with_yourdfpy r ctx = LoadOutcome.result st) :
    ∃ maps : BuildState, processAll r ctx maps = some st := by
  unfold load_urdf_with_yourdfpy at h
  by_cases hc : ctx.collapse_fixed_joints = true
  · rw [if_pos hc] at h
    by_cases hso : sortOK r
    · rw [if_pos hso] at h
      cases hbm : buildMaps r with
      | none =>
        simp only [hbm] at h
        exact LoadOutcome.noConfusion h
      | some maps =>
        simp only [hbm] at h
        cases hpa : processAll r ctx maps with
        | none =>
          simp only [hpa] at h
          exact LoadOutcome.noConfusion h
        | some st2 =>
          simp only [hpa] at h
          obtain rfl := LoadOutcome.result.inj h
          exact ⟨maps, hpa⟩
    · rw [if_neg hso] at h
      cases h
  · rw [if_neg hc] at h
    cases hpa : processAll r ctx (initMaps r) with
    | none =>
      simp only [hpa] at h
      exact LoadOutcome.noConfusion h
    | some st2 =>
      simp only [hpa] at h
      obtain rfl := LoadOutcome.result.inj h
      exact ⟨initMaps r, hpa⟩

/-- C6: within one canonical link, the emitted AssetKey indices are
pairwise distinct and form the contiguous range 0, 1, ... in emission
order, the counter stepping once per emitted entry including every
sub-mesh expansion. -/
theorem C6_per_link_index_range (r : Robot) (ctx : Ctx) (st : PState)
    (h : load_urdf_with_yourdfpy r ctx = LoadOutcome.result st) (c : String) :
    (st.emissions.filter (fun e => e.1 == c)).map (fun e => e.2.1) =
      (List.range (st.emissions.filter (fun e => e.1 == c)).length).map
        (fun (i : ℕ) => (i : ℤ)) := by
  obtain ⟨maps, hpa⟩ := load_result_processAll h
  exact (processAll_countInv r ctx maps hpa c).2

/- ----------------------------------------------------------------- -/
/- Unsupported geometry aborts the whole load (claim C9)               -/
/- ----------------------------------------------------------------- -/

theorem dispatchGeom_bad {r : Robot} {ctx : Ctx} {u : Option Rgba} {p : Mat} {g : Geom}
    (hbad : (∃ mr : MeshRef, g.mesh = some mr ∧
        supportedExt (r.filename_handler mr.filename) = false) ∨
      (g.mesh = none ∧ g.sphere = none ∧ g.box = none ∧ g.cylinder = none)) :
    dispatchGeom r ctx u p g = none := by
  unfold dispatchGeom
  rcases hbad with ⟨mr, hm, hext⟩ | ⟨hm, hs, hb, hc⟩
  · unfold supportedExt at hext
    rw [Bool.or_eq_false_iff, Bool.or_eq_false_iff, Bool.or_eq_false_iff] at hext
    obtain ⟨⟨⟨h1, h2⟩, h3⟩, h4⟩ := hext
    have e1 : ¬ lowerEndsWith (r.filename_handler mr.filename) "obj" = true := by simp [h1]
    have e2 : ¬ lowerEndsWith (r.filename_handler mr.filename) "dae" = true := by simp [h2]
    have e3 : ¬ lowerEndsWith (r.filename_handler mr.filename) "stl" = true := by simp [h3]
    have e4 : ¬ lowerEndsWith (r.filename_handler mr.filename) "glb" = true := by simp [h4]
    simp only [hm]
    rw [if_neg e1, if_neg e2, if_neg e3, if_neg e4]
  · simp only [hm, hs, hb, hc]

theorem processVisual_bad {r : Robot} {ctx : Ctx} {maps : BuildState} {ln : String}
    {v : Visual} (hbad : BadVisual r v) :
    processVisual r ctx maps ln v = none := by
  unfold processVisual
  cases hrg : parse_urdf_rgba (if ctx.use_mesh_materials = true then [] else r.material_map) v with
  | none => rfl
  | some u =>
    rw [Option.some_bind]
    cases hps : poseStage ctx maps ln v with
    | none => rfl
    | some vp =>
      rw [Option.some_bind, dispatchGeom_bad hbad]
      rfl

/-- C9: a visual whose mesh extension is unsupported, or whose geometry
carries none of the closed kind set, makes the whole load raise: no
geometry is skipped and no partial result is produced. -/
theorem C9_unsupported_aborts (r : Robot) (ctx : Ctx) (ln : String) (lk : Link) (v : Visual)
    (hl : (ln, lk) ∈ r.link_map) (hv : v ∈ lk.visuals) (hbad : BadVisual r v)
    (hwf : ctx.collapse_fixed_joints = true → WellFormed r) :
    load_urdf_with_yourdfpy r ctx = LoadOutcome.fails := by
  have hpa : ∀ maps : BuildState, processAll r ctx maps = none := by
    intro maps
    cases hq : processAll r ctx maps with
    | none => rfl
    | some st =>
      exfalso
      obtain ⟨c, c2, hstep⟩ := foldl_option_all_some (lstepO r ctx maps) (fun _ => rfl)
        r.link_map ⟨[], [], []⟩ st hq (ln, lk) hl
      have hstep2 : (match lk.visuals.foldl (vstepO r ctx maps ln)
          (some (c, ([] : List Visual))) with
        | none => none
        | some (st2, vis2) =>
          some { st2 with links_out := st2.links_out ++ [(ln, ⟨vis2⟩)] }) = some c2 := hstep
      cases hin : lk.visuals.foldl (vstepO r ctx maps ln) (some (c, ([] : List Visual))) with
      | none =>
        simp only [hin] at hstep2
        exact Option.noConfusion hstep2
      | some pr =>
        obtain ⟨a, a2, hvs⟩ := foldl_option_all_some (vstepO r ctx maps ln) (fun _ => rfl)
          lk.visuals (c, ([] : List Visual)) pr hin v hv
        have hvs2 : vstep r ctx maps ln a v = some a2 := hvs
        unfold vstep at hvs2
        rw [processVisual_bad hbad] at hvs2
        exact Option.noConfusion hvs2
  unfold load_urdf_with_yourdfpy
  by_cases hc : ctx.collapse_fixed_joints = true
  · obtain ⟨t, ht, _, _, _, _, _, _⟩ := buildMaps_ok r (hwf hc)
    rw [if_pos hc, if_pos (hwf hc).2.2.2]
    simp only [ht, hpa t]
  · rw [if_neg hc]
    simp only [hpa (initMaps r)]

/- ----------------------------------------------------------------- -/
/- Disabled collapse behaves like an all-movable tree (claim C8)       -/
/- ----------------------------------------------------------------- -/

theorem alookup_map_val {α β : Type} (f : α → β) :
    ∀ (l : List (String × α)) (x : String),
      alookup (l.map (fun p => (p.1, f p.2))) x = (alookup l x).map f := by
  intro l x
  induction l with
  | nil => rfl
  | cons p rest ih =>
    obtain ⟨a, b⟩ := p
    by_cases h : a = x
    · simp [alookup, h]
    · simp [alookup, h, ih]

theorem alookup_asMovable (r : Robot) (x : String) :
    alookup (asMovable r).joint_map x = (alookup r.joint_map x).map movJoint := by
  show alookup (r.joint_map.map (fun p => (p.1, movJoint p.2))) x = _
  exact alookup_map_val movJoint r.joint_map x

theorem keysOf_asMovable (r : Robot) :
    keysOf (asMovable r).joint_map = keysOf r.joint_map := by
  show keysOf (r.joint_map.map (fun p => (p.1, movJoint p.2))) = _
  unfold keysOf
  rw [List.map_map]
  exact List.map_congr_left (fun p _ => rfl)

theorem childrenOf_asMovable (r : Robot) :
    childrenOf (asMovable r).joint_map = childrenOf r.joint_map := by
  show childrenOf (r.joint_map.map (fun p => (p.1, movJoint p.2))) = _
  unfold childrenOf
  rw [List.map_map]
  exact List.map_congr_left (fun p _ => rfl)

theorem sortStep_asMovable (r : Robot) (st : List String × List String) (jn : String) :
    sortStep (asMovable r).joint_map st jn = sortStep r.joint_map st jn := by
  unfold sortStep
  rw [alookup_asMovable]
  cases alookup r.joint_map jn with
  | none => rfl
  | some j => rfl

theorem sortPass_asMovable (r : Robot) (st : List String × List String) :
    sortPass (asMovable r).joint_map st = sortPass r.joint_map st := by
  unfold sortPass
  rw [keysOf_asMovable]
  exact foldl_congr_fn _ _ (fun a b => sortStep_asMovable r a b) (keysOf r.joint_map) st

theorem sortState_asMovable (r : Robot) : ∀ n : ℕ, sortState (asMovable r) n = sortState r n := by
  intro n
  induction n with
  | zero => rfl
  | succ n ih =>
    show sortPass (asMovable r).joint_map (sortState (asMovable r) n) = _
    rw [ih, sortPass_asMovable]
    rfl

theorem joint_map_length_asMovable (r : Robot) :
    (asMovable r).joint_map.length = r.joint_map.length := by
  show (r.joint_map.map _).length = _
  rw [List.length_map]

theorem sortedJoints_asMovable (r : Robot) : sortedJoints (asMovable r) = sortedJoints r := by
  unfold sortedJoints
  rw [joint_map_length_asMovable, sortState_asMovable]

theorem sortOK_asMovable (r : Robot) (h : sortOK r) : sortOK (asMovable r) := by
  show (sortedJoints (asMovable r)).length = (asMovable r).joint_map.length
  rw [sortedJoints_asMovable, joint_map_length_asMovable]
  exact h

theorem wellFormed_asMovable (r : Robot) (hwf : WellFormed r) : WellFormed (asMovable r) := by
  refine ⟨?_, ?_, ?_, sortOK_asMovable r hwf.2.2.2⟩
  · rw [keysOf_asMovable]
    exact hwf.1
  · rw [childrenOf_asMovable]
    exact hwf.2.1
  · show (asMovable r).base_link ∉ childrenOf (asMovable r).joint_map
    rw [childrenOf_asMovable]
    exact hwf.2.2.1

theorem childOf_asMovable (r : Robot) (x : String) :
    childOf (asMovable r).joint_map x = childOf r.joint_map x := by
  unfold childOf
  rw [alookup_asMovable]
  cases alookup r.joint_map x with
  | none => rfl
  | some j => rfl

/-- With every joint movable, the built maps send every stored link to
itself with the identity pose. -/
theorem buildMaps_asMovable_char (r : Robot) (hwf : WellFormed r) :
    ∃ t : BuildState, buildMaps (asMovable r) = some t ∧
      (∀ x rt : String, alookup t.link_root_map x = some rt →
        rt = x ∧ alookup t.link_pose_map x = some 1) := by
  have hwfM := wellFormed_asMovable r hwf
  obtain ⟨t, ht, hkr, hkp, hbr, hbp, _, _⟩ := buildMaps_ok (asMovable r) hwfM
  refine ⟨t, ht, ?_⟩
  intro x rt hx
  have hxk : x ∈ keysOf t.link_root_map := mem_keysOf_iff.mpr (by simp [hx])
  rw [hkr] at hxk
  rcases List.mem_cons.mp hxk with rfl | hxc
  · rw [hbr] at hx
    exact ⟨(Option.some.inj hx).symm ▸ rfl, hbp⟩
  · obtain ⟨jn, hjn, hcx⟩ := List.mem_map.mp hxc
    have hinv := sortState_inv (asMovable r) (asMovable r).joint_map.length
    have hk : jn ∈ keysOf (asMovable r).joint_map := hinv.sub jn hjn
    obtain ⟨j, hj⟩ := Option.isSome_iff_exists.mp (mem_keysOf_iff.mp hk)
    have hmov : ¬ j.jtype = "fixed" := by
      rw [alookup_asMovable] at hj
      cases hj0 : alookup r.joint_map jn with
      | none => rw [hj0] at hj; cases hj
      | some j0 =>
        rw [hj0] at hj
        obtain rfl := Option.some.inj hj
        simp [movJoint]
    have hch := (buildMaps_entries (asMovable r) hwfM ht jn hk j hj).2 hmov
    rw [childOf_eq hj] at hcx
    subst hcx
    rw [hch.1] at hx
    exact ⟨(Option.some.inj hx).symm, hch.2⟩

/-- Every covered link of link_map keeps itself as root with identity pose
in the all-movable build. -/
theorem asMovable_covered (r : Robot) (hwf : WellFormed r) (hcov : LinksCovered r)
    {t : BuildState} (ht : buildMaps (asMovable r) = some t) :
    ∀ p ∈ r.link_map, alookup t.link_root_map p.1 = some p.1 ∧
      alookup t.link_pose_map p.1 = some 1 := by
  have hwfM := wellFormed_asMovable r hwf
  obtain ⟨tb, htb, hkr, hkp, hbr, hbp, _, _⟩ := buildMaps_ok (asMovable r) hwfM
  rw [ht] at htb
  obtain rfl := Option.some.inj htb
  intro p hp
  rcases hcov p hp with hb | hc
  · rw [hb]
    exact ⟨hbr, hbp⟩
  · obtain ⟨q, hq, hqc⟩ := List.mem_map.mp hc
    have hkq : q.1 ∈ keysOf (asMovable r).joint_map := by
      rw [keysOf_asMovable]
      exact List.mem_map_of_mem Prod.fst hq
    have hjA : alookup (asMovable r).joint_map q.1 = some (movJoint q.2) := by
      rw [alookup_asMovable, alookup_of_mem_nodup hwf.1 hq]
      rfl
    have hch := (buildMaps_entries (asMovable r) hwfM ht q.1 hkq _ hjA).2
      (by simp [movJoint])
    rw [show (movJoint q.2).child = q.2.child from rfl, hqc] at hch
    exact hch

/- The emission-relevant part of the scan state. -/

theorem processVisual_fst_movable (r : Robot) (cyl mats : Bool) (maps : BuildState)
    (ln : String) (v : Visual) (hpose : alookup maps.link_pose_map ln = some 1) :
    Option.map Prod.fst (processVisual (asMovable r) (Ctx.mk true cyl mats) maps ln v) =
      Option.map Prod.fst (processVisual r (Ctx.mk false cyl mats) (initMaps r) ln v) := by
  have hmm2 : (if (Ctx.mk true cyl mats).use_mesh_materials = true then
      ([] : List (String × Option UColor)) else (asMovable r).material_map) =
    (if (Ctx.mk false cyl mats).use_mesh_materials = true then [] else r.material_map) := rfl
  have hps : poseStage (Ctx.mk true cyl mats) maps ln v =
      poseStage (Ctx.mk false cyl mats) (initMaps r) ln v := by
    unfold poseStage
    show (if true = true then (alookup maps.link_pose_map ln).map
            (fun lp => lp * visualPose0 v)
          else some (visualPose0 v)) =
        (if false = true then (alookup (initMaps r).link_pose_map ln).map
            (fun lp => lp * visualPose0 v)
          else some (visualPose0 v))
    rw [if_pos rfl, if_neg (by simp), hpose]
    simp [one_mul]
  have hdg : ∀ (u : Option Rgba) (p : Mat) (g : Geom),
      dispatchGeom (asMovable r) (Ctx.mk true cyl mats) u p g =
        dispatchGeom r (Ctx.mk false cyl mats) u p g := fun u p g => rfl
  unfold processVisual
  rw [hmm2, hps]
  cases hrg : parse_urdf_rgba (if (Ctx.mk false cyl mats).use_mesh_materials = true then []
      else r.material_map) v with
  | none => rfl
  | some u =>
    rw [Option.some_bind, Option.some_bind]
    cases hp2 : poseStage (Ctx.mk false cyl mats) (initMaps r) ln v with
    | none => rfl
    | some vp =>
      rw [Option.some_bind, Option.some_bind, hdg]
      cases hd : dispatchGeom r (Ctx.mk false cyl mats) u vp v.geometry with
      | none => rfl
      | some pr =>
        rw [Option.some_bind, Option.some_bind]
        rfl

theorem vstep_movable_equiv (r : Robot) (cyl mats : Bool) (maps : BuildState) (ln : String)
    (hroot : alookup maps.link_root_map ln = some ln)
    (hpose : alookup maps.link_pose_map ln = some 1)
    (acc1 acc2 : PState × List Visual) (hrel : PRel acc1.1 acc2.1) (v : Visual) :
    (vstep (asMovable r) (Ctx.mk true cyl mats) maps ln acc1 v = none ∧
      vstep r (Ctx.mk false cyl mats) (initMaps r) ln acc2 v = none) ∨
    (∃ a1 a2, vstep (asMovable r) (Ctx.mk true cyl mats) maps ln acc1 v = some a1 ∧
      vstep r (Ctx.mk false cyl mats) (initMaps r) ln acc2 v = some a2 ∧ PRel a1.1 a2.1) := by
  have hfst := processVisual_fst_movable r cyl mats maps ln v hpose
  cases h1 : processVisual (asMovable r) (Ctx.mk true cyl mats) maps ln v with
  | none =>
    rw [h1] at hfst
    cases h2 : processVisual r (Ctx.mk false cyl mats) (initMaps r) ln v with
    | none =>
      left
      constructor
      · unfold vstep
        rw [h1]
      · unfold vstep
        rw [h2]
    | some pr2 =>
      rw [h2] at hfst
      exact absurd hfst (by simp)
  | some pr1 =>
    obtain ⟨e1, w1⟩ := pr1
    rw [h1] at hfst
    cases h2 : processVisual r (Ctx.mk false cyl mats) (initMaps r) ln v with
    | none =>
      rw [h2] at hfst
      exact absurd hfst (by simp)
    | some pr2 =>
      obtain ⟨e2, w2⟩ := pr2
      rw [h2] at hfst
      have he : e1 = e2 := by simpa using hfst
      subst he
      right
      have hv1 : vstep (asMovable r) (Ctx.mk true cyl mats) maps ln acc1 v =
          some ({ link_mesh_count := upd acc1.1.link_mesh_count ln
                    (nextGid acc1.1.link_mesh_count ln + (e1.length : ℤ) - 1),
                  emissions := acc1.1.emissions ++
                    emitEntries ln (nextGid acc1.1.link_mesh_count ln) e1,
                  links_out := acc1.1.links_out }, acc1.2 ++ [w1]) := by
        unfold vstep
        rw [h1, hroot]
        rfl
      have hv2 : vstep r (Ctx.mk false cyl mats) (initMaps r) ln acc2 v =
          some ({ link_mesh_count := upd acc2.1.link_mesh_count ln
                    (nextGid acc2.1.link_mesh_count ln + (e1.length : ℤ) - 1),
                  emissions := acc2.1.emissions ++
                    emitEntries ln (nextGid acc2.1.link_mesh_count ln) e1,
                  links_out := acc2.1.links_out }, acc2.2 ++ [w2]) := by
        unfold vstep
        rw [h2]
        rfl
      exact ⟨_, _, hv1, hv2, ⟨by rw [hrel.1], by rw [hrel.1, hrel.2]⟩⟩

theorem foldVisuals_movable_equiv (r : Robot) (cyl mats : Bool) (maps : BuildState)
    (ln : String)
    (hroot : alookup maps.link_root_map ln = some ln)
    (hpose : alookup maps.link_pose_map ln = some 1) :
    ∀ (vis : List Visual) (acc1 acc2 : PState × List Visual), PRel acc1.1 acc2.1 →
      (vis.foldl (vstepO (asMovable r) (Ctx.mk true cyl mats) maps ln) (some acc1) = none ∧
        vis.foldl (vstepO r (Ctx.mk false cyl mats) (initMaps r) ln) (some acc2) = none) ∨
      (∃ b1 b2,
        vis.foldl (vstepO (asMovable r) (Ctx.mk true cyl mats) maps ln) (some acc1) =
          some b1 ∧
        vis.foldl (vstepO r (Ctx.mk false cyl mats) (initMaps r) ln) (some acc2) = some b2 ∧
        PRel b1.1 b2.1) := by
  intro vis
  induction vis with
  | nil =>
    intro acc1 acc2 h
    right
    exact ⟨acc1, acc2, rfl, rfl, h⟩
  | cons v rest ih =>
    intro acc1 acc2 h
    rcases vstep_movable_equiv r cyl mats maps ln hroot hpose acc1 acc2 h v with
      ⟨hn1, hn2⟩ | ⟨a1, a2, hs1, hs2, hrel⟩
    · left
      rw [List.foldl_cons, List.foldl_cons]
      have f1 : vstepO (asMovable r) (Ctx.mk true cyl mats) maps ln (some acc1) v = none := hn1
      have f2 : vstepO r (Ctx.mk false cyl mats) (initMaps r) ln (some acc2) v = none := hn2
      rw [f1, f2, foldl_option_none _ (fun _ => rfl) rest, foldl_option_none _ (fun _ => rfl) rest]
      exact ⟨rfl, rfl⟩
    · rw [List.foldl_cons, List.foldl_cons]
      have f1 : vstepO (asMovable r) (Ctx.mk true cyl mats) maps ln (some acc1) v = some a1 := hs1
      have f2 : vstepO r (Ctx.mk false cyl mats) (initMaps r) ln (some acc2) v = some a2 := hs2
      rw [f1, f2]
      exact ih a1 a2 hrel

theorem lstepO_movable_equiv (r : Robot) (cyl mats : Bool) (maps : BuildState)
    (p : String × Link)
    (hroot : alookup maps.link_root_map p.1 = some p.1)
    (hpose : alookup maps.link_pose_map p.1 = some 1)
    (s1 s2 : PState) (hrel : PRel s1 s2) :
    (lstepO (asMovable r) (Ctx.mk true cyl mats) maps (some s1) p = none ∧
      lstepO r (Ctx.mk false cyl mats) (initMaps r) (some s2) p = none) ∨
    (∃ t1 t2, lstepO (asMovable r) (Ctx.mk true cyl mats) maps (some s1) p = some t1 ∧
      lstepO r (Ctx.mk false cyl mats) (initMaps r) (some s2) p = some t2 ∧ PRel t1 t2) := by
  rcases foldVisuals_movable_equiv r cyl mats maps p.1 hroot hpose p.2.visuals
      (s1, ([] : List Visual)) (s2, ([] : List Visual)) hrel with
    ⟨hn1, hn2⟩ | ⟨b1, b2, hb1, hb2, hrelb⟩
  · left
    constructor
    · show (match p.2.visuals.foldl (vstepO (asMovable r) (Ctx.mk true cyl mats) maps p.1)
          (some (s1, ([] : List Visual))) with
        | none => none
        | some (st2, vis2) =>
          some { st2 with links_out := st2.links_out ++ [(p.1, Link.mk vis2)] }) =
        (none : Option PState)
      rw [hn1]
    · show (match p.2.visuals.foldl (vstepO r (Ctx.mk false cyl mats) (initMaps r) p.1)
          (some (s2, ([] : List Visual))) with
        | none => none
        | some (st2, vis2) =>
          some { st2 with links_out := st2.links_out ++ [(p.1, Link.mk vis2)] }) =
        (none : Option PState)
      rw [hn2]
  · right
    obtain ⟨st1, vis1⟩ := b1
    obtain ⟨st2, vis2⟩ := b2
    have hl1 : lstepO (asMovable r) (Ctx.mk true cyl mats) maps (some s1) p =
        some { st1 with links_out := st1.links_out ++ [(p.1, Link.mk vis1)] } := by
      show (match p.2.visuals.foldl (vstepO (asMovable r) (Ctx.mk true cyl mats) maps p.1)
          (some (s1, ([] : List Visual))) with
        | none => (none : Option PState)
        | some (stx, visx) =>
          some { stx with links_out := stx.links_out ++ [(p.1, Link.mk visx)] }) = _
      rw [hb1]
    have hl2 : lstepO r (Ctx.mk false cyl mats) (initMaps r) (some s2) p =
        some { st2 with links_out := st2.links_out ++ [(p.1, Link.mk vis2)] } := by
      show (match p.2.visuals.foldl (vstepO r (Ctx.mk false cyl mats) (initMaps r) p.1)
          (some (s2, ([] : List Visual))) with
        | none => (none : Option PState)
        | some (stx, visx) =>
          some { stx with links_out := stx.links_out ++ [(p.1, Link.mk visx)] }) = _
      rw [hb2]
    exact ⟨_, _, hl1, hl2, ⟨hrelb.1, hrelb.2⟩⟩

theorem processAll_movable_equiv (r : Robot) (cyl mats : Bool) (maps : BuildState)
    (hcov : ∀ p ∈ r.link_map, alookup maps.link_root_map p.1 = some p.1 ∧
      alookup maps.link_pose_map p.1 = some 1) :
    (processAll (asMovable r) (Ctx.mk true cyl mats) maps = none ∧
      processAll r (Ctx.mk false cyl mats) (initMaps r) = none) ∨
    (∃ s1 s2, processAll (asMovable r) (Ctx.mk true cyl mats) maps = some s1 ∧
      processAll r (Ctx.mk false cyl mats) (initMaps r) = some s2 ∧ PRel s1 s2) := by
  suffices h : ∀ l : List (String × Link),
      (∀ p ∈ l, alookup maps.link_root_map p.1 = some p.1 ∧
        alookup maps.link_pose_map p.1 = some 1) →
      ∀ s1 s2 : PState, PRel s1 s2 →
      (l.foldl (lstepO (asMovable r) (Ctx.mk true cyl mats) maps) (some s1) = none ∧
        l.foldl (lstepO r (Ctx.mk false cyl mats) (initMaps r)) (some s2) = none) ∨
      (∃ t1 t2,
        l.foldl (lstepO (asMovable r) (Ctx.mk true cyl mats) maps) (some s1) = some t1 ∧
        l.foldl (lstepO r (Ctx.mk false cyl mats) (initMaps r)) (some s2) = some t2 ∧
        PRel t1 t2) by
    exact h r.link_map hcov ⟨[], [], []⟩ ⟨[], [], []⟩ ⟨rfl, rfl⟩
  intro l
  induction l with
  | nil =>
    intro _ s1 s2 h
    right
    exact ⟨s1, s2, rfl, rfl, h⟩
  | cons p rest ih =>
    intro hc s1 s2 h
    have hp := hc p (List.mem_cons_self p rest)
    rcases lstepO_movable_equiv r cyl mats maps p hp.1 hp.2 s1 s2 h with
      ⟨hn1, hn2⟩ | ⟨t1, t2, ht1, ht2, hrel⟩
    · left
      rw [List.foldl_cons, List.foldl_cons, hn1, hn2,
        foldl_option_none _ (fun _ => rfl) rest, foldl_option_none _ (fun _ => rfl) rest]
      exact ⟨rfl, rfl⟩
    · rw [List.foldl_cons, List.foldl_cons, ht1, ht2]
      exact ih (fun q hq => hc q (List.mem_cons_of_mem p hq)) t1 t2 hrel

/-- C8: disabling collapse keeps every link as its own canonical link with
the identity link pose: the emitted assets equal those of the same robot
with every joint movable and collapse enabled, and in that run
root[x] = x and pose[x] = identity for every stored x. -/
theorem C8_disabled_collapse_is_movable (r : Robot) (cyl mats : Bool)
    (hwf : WellFormed r) (hcov : LinksCovered r) :
    (∀ x rt : String, rootLookup (buildMaps (asMovable r)) x = some rt →
      rt = x ∧ poseLookup (buildMaps (asMovable r)) x = some 1) ∧
    emissionsOf (load_urdf_with_yourdfpy r (Ctx.mk false cyl mats)) =
      emissionsOf (load_urdf_with_yourdfpy (asMovable r) (Ctx.mk true cyl mats)) := by
  obtain ⟨t, ht, hchar⟩ := buildMaps_asMovable_char r hwf
  constructor
  · intro x rt hx
    rw [ht] at hx
    have hx2 : alookup t.link_root_map x = some rt := hx
    obtain ⟨h1, h2⟩ := hchar x rt hx2
    refine ⟨h1, ?_⟩
    rw [ht]
    exact h2
  · have hcovM := asMovable_covered r hwf hcov ht
    have hL : load_urdf_with_yourdfpy r (Ctx.mk false cyl mats) =
        (match processAll r (Ctx.mk false cyl mats) (initMaps r) with
          | none => LoadOutcome.fails
          | some st => LoadOutcome.result st) := by
      unfold load_urdf_with_yourdfpy
      rw [if_neg (by simp : ¬ (Ctx.mk false cyl mats).collapse_fixed_joints = true)]
    have hR : load_urdf_with_yourdfpy (asMovable r) (Ctx.mk true cyl mats) =
        (match processAll (asMovable r) (Ctx.mk true cyl mats) t with
          | none => LoadOutcome.fails
          | some st => LoadOutcome.result st) := by
      unfold load_urdf_with_yourdfpy
      rw [if_pos (rfl : (Ctx.mk true cyl mats).collapse_fixed_joints = true)]
      rw [if_pos (sortOK_asMovable r hwf.2.2.2)]
      rw [ht]
    rw [hL, hR]
    rcases processAll_movable_equiv r cyl mats t hcovM with
      ⟨hn1, hn2⟩ | ⟨s1, s2, hs1, hs2, hrel⟩
    · rw [hn1, hn2]
    · rw [hs1, hs2]
      show some s2.emissions = some s1.emissions
      rw [hrel.2]

/- ----------------------------------------------------------------- -/
/- C4, C7, C10 and the witnesses                                       -/
/- ----------------------------------------------------------------- -/

/-- C4: on a malformed tree (a joint whose parent is never resolved) with
collapse enabled, the load does not abort with an error: the sorting while
loop never terminates, its guard holding after every pass, and nothing is
returned. -/
theorem C4_malformed_tree_diverges :
    load_urdf_with_yourdfpy rBad ctxCollapse = LoadOutcome.diverges ∧
    ∀ n : ℕ, (sortState rBad n).2.length < rBad.joint_map.length := by
  have hnot : ¬ sortOK rBad := by decide
  constructor
  · unfold load_urdf_with_yourdfpy
    rw [if_pos (show ctxCollapse.collapse_fixed_joints = true by decide), if_neg hnot]
  · exact sort_never_terminates rBad hnot

theorem RxH_one_one : RxH 1 1 = 0 := by decide

/-- C7: in the dae branch the emitted sub-mesh pose is the visual-level
pose itself; the sub-mesh local transform (here RxH on sub-mesh a) is
computed but dropped, so the emitted pose differs from the composed pose
the specification requires. -/
theorem C7_dae_submesh_pose_dropped :
    firstPose (load_urdf_with_yourdfpy rC7 ctxPlain) = some (1 : Mat) ∧
    (1 : Mat) * RxH ≠ (1 : Mat) := by
  constructor
  · rfl
  · rw [one_mul]
    intro h
    have h2 := congrFun (congrFun h 1) 1
    rw [RxH_one_one, Matrix.one_apply_eq] at h2
    exact absurd h2 (by norm_num)

theorem rotFix_one_ne_one : rotFix (1 : Mat) ≠ (1 : Mat) := by
  intro h
  have h2 := congrFun (congrFun h 1) 1
  have e1 : rotFix (1 : Mat) 1 1 = 0 := by
    show (if (1 : Fin 4) ≠ 3 ∧ (1 : Fin 4) ≠ 3 then ((1 : Mat) * RxH) 1 1
          else (1 : Mat) 1 1) = 0
    rw [if_pos (by decide), one_mul, RxH_one_one]
  rw [e1, Matrix.one_apply_eq] at h2
  exact absurd h2 (by norm_num)

/-- C10: with collapse disabled, a cylinder visual with an explicit origin
has the axis-correction rotation written into visual.origin in place: the
tree after the call differs from the parsed input. -/
theorem C10_cylinder_mutates_origin :
    allOrigins (load_urdf_with_yourdfpy rC10 ctxPlain) = some [some (rotFix 1)] ∧
    cylVisual.origin = some (1 : Mat) ∧
    rotFix (1 : Mat) ≠ (1 : Mat) :=
  ⟨rfl, rfl, rotFix_one_ne_one⟩

theorem C1_fixed_pose_composition_witness :
    WellFormed rW ∧
    (∃ t : BuildState, buildMaps rW = some t ∧ ∃ rt pp,
      alookup t.link_root_map jW1.parent = some rt ∧
      alookup t.link_pose_map jW1.parent = some pp ∧
      alookup t.link_root_map jW1.child = some rt ∧
      alookup t.link_pose_map jW1.child = some (pp * jW1.origin)) :=
  ⟨by decide,
    C1_fixed_pose_composition rW (by decide) "j1" jW1 (List.mem_cons_self _ _) rfl⟩

theorem C2_collapse_idempotent_witness :
    WellFormed rW ∧
    (∃ t : BuildState, buildMaps rW = some t ∧
      ∀ x rt : String, alookup t.link_root_map x = some rt →
        alookup t.link_root_map rt = some rt) :=
  ⟨by decide, C2_collapse_idempotent rW (by decide)⟩

theorem C3_identity_at_root_witness :
    WellFormed rW ∧
    (∃ t : BuildState, buildMaps rW = some t ∧
      alookup t.link_pose_map rW.base_link = some 1 ∧
      (∀ (jn : String) (j : Joint), (jn, j) ∈ rW.joint_map → ¬ j.jtype = "fixed" →
        alookup t.link_pose_map j.child = some 1) ∧
      (∀ x rt : String, alookup t.link_root_map x = some rt →
        alookup t.link_pose_map rt = some 1)) :=
  ⟨by decide, C3_identity_at_root rW (by decide)⟩

theorem C5_order_independence_witness :
    rW.base_link = rWswap.base_link ∧ WellFormed rW ∧
    ((buildMaps rW).isSome ∧ (buildMaps rWswap).isSome ∧
      rootLookup (buildMaps rW) "c1" = rootLookup (buildMaps rWswap) "c1" ∧
      poseLookup (buildMaps rW) "c1" = poseLookup (buildMaps rWswap) "c1") := by
  have hperm : rW.joint_map.Perm rWswap.joint_map := List.Perm.swap _ _ _
  have h := C5_order_independence rW rWswap rfl hperm (by decide)
  exact ⟨rfl, by decide, h.1, h.2.1, (h.2.2 "c1").1, (h.2.2 "c1").2⟩

theorem C6_per_link_index_range_witness :
    load_urdf_with_yourdfpy rC6 ctxPlain = LoadOutcome.result resC6 ∧
    (resC6.emissions.filter (fun e => e.1 == "l")).map (fun e => e.2.1) =
      (List.range (resC6.emissions.filter (fun e => e.1 == "l")).length).map
        (fun (i : ℕ) => (i : ℤ)) :=
  ⟨rfl, C6_per_link_index_range rC6 ctxPlain resC6 rfl "l"⟩

theorem C8_disabled_collapse_witness :
    WellFormed rW ∧ LinksCovered rW ∧
    emissionsOf (load_urdf_with_yourdfpy rW (Ctx.mk false false false)) =
      emissionsOf (load_urdf_with_yourdfpy (asMovable rW) (Ctx.mk true false false)) :=
  ⟨by decide, by decide,
    (C8_disabled_collapse_is_movable rW false false (by decide) (by decide)).2⟩

theorem C9_unsupported_aborts_witness :
    load_urdf_with_yourdfpy rC9 ctxPlain = LoadOutcome.fails :=
  C9_unsupported_aborts rC9 ctxPlain "l" { visuals := [badVisual] } badVisual
    (List.mem_cons_self _ _) (List.mem_cons_self _ _)
    (Or.inr ⟨rfl, rfl, rfl, rfl⟩) (fun h => absurd h (by decide))

end SimWeb
